import Mathlib

/-!
# Verification of the toyc compiler pipeline specification

This file gives a shallow embedding of the toyc compiler pipeline and settles
the specification's claims against it.  The repository ships the frontend
(TypeScript) sources; the backend compiler package (lexer, parser, semantic
analyzer, ICG, optimizer, code generator, direct executor) is exercised only
through its API and documented in the specification and the repository READMEs,
so those components are modelled from the specification, as marked on each
definition.  Frontend functions (`formatInstruction`, the undefined-variable
form's type inference, the `useStepByStep` playback hook) are translated
directly from the TypeScript sources.

Numeric values are modelled as rationals: the toyc value domain is int/float
with int-to-float coercion, and the optimizer/interpreter claims are about
exact preservation of values, for which `ℚ` is a conforming carrier.
-/

/-- The two numeric types of the toyc language (spec §3, Symbol Table Entry). -/
inductive Ty where
  | int
  | float
deriving DecidableEq, Repr

/-- Binary operators of toyc: arithmetic, comparison and logical
(spec §4.2 grammar, §4.4 ICG operations). -/
inductive BinOp where
  | add | sub | mul | div | mod
  | lt | gt | le | ge | eq | ne
  | land | lor
deriving DecidableEq, Repr

/-- Modelled from the spec: a TAC operand (spec §3, TAC Instruction).  A literal
operand carries its type, its underlying typed value, and its textual form (the
`#`-sentinel is added when rendering); every other operand is a named variable
(a normalized identifier `idN` or a temporary `tempN`). -/
inductive Operand where
  | lit (ty : Ty) (v : ℚ) (txt : String)
  | var (name : String)
deriving DecidableEq, Repr

/-- Modelled from the spec: one TAC instruction (spec §3): an operation with
optional `arg1`, `arg2`, `result` and `label` fields, structured here as a
closed variant per operation kind (spec §4.4 lists the operation set). -/
inductive Instr where
  | assign (dst : String) (src : Operand)
  | binop (dst : String) (op : BinOp) (a b : Operand)
  | int2float (dst : String) (a : Operand)
  | label (name : String)
  | goto (target : String)
  | if_false (cond : Operand) (target : String)
  | read (dst : String)
  | write (a : Operand)
deriving DecidableEq, Repr

/-- Interpreter state for TAC: an environment (total map, default 0),
the remaining pre-supplied input values, and the ordered write output. -/
structure St where
  env : String → ℚ
  input : List ℚ
  output : List ℚ

/-- Environment update. -/
def upd (env : String → ℚ) (x : String) (v : ℚ) : String → ℚ :=
  fun y => if y = x then v else env y

/-- Modelled from the spec: evaluation of a binary operator.  Comparisons and
logical operators yield the numerals 0/1 (spec §4.3: results remain numeric). -/
def evalOp (o : BinOp) (a b : ℚ) : ℚ :=
  match o with
  | .add => a + b
  | .sub => a - b
  | .mul => a * b
  | .div => a / b
  | .mod => a - b * ((a / b).floor : ℚ)
  | .lt => if a < b then 1 else 0
  | .gt => if b < a then 1 else 0
  | .le => if a ≤ b then 1 else 0
  | .ge => if b ≤ a then 1 else 0
  | .eq => if a = b then 1 else 0
  | .ne => if a = b then 0 else 1
  | .land => if a ≠ 0 ∧ b ≠ 0 then 1 else 0
  | .lor => if a ≠ 0 ∨ b ≠ 0 then 1 else 0

/-- Value of an operand: the typed value of a literal, else the environment. -/
def evalOperand (env : String → ℚ) : Operand → ℚ
  | .lit _ v _ => v
  | .var x => env x

/-- Modelled from the spec: state effect of a single TAC instruction
(spec §4.4/§4.5).  Control-flow instructions do not change the state;
their effect on the program counter lives in `nextPc`.  `int2float` keeps the
underlying value (the coercion only retypes it).  `read` consumes the next
pre-supplied input value (0 when the input is exhausted). -/
def stepInstr (i : Instr) (st : St) : St :=
  match i with
  | .assign d s => { st with env := upd st.env d (evalOperand st.env s) }
  | .binop d o a b =>
      { st with env := upd st.env d (evalOp o (evalOperand st.env a) (evalOperand st.env b)) }
  | .int2float d a => { st with env := upd st.env d (evalOperand st.env a) }
  | .label _ => st
  | .goto _ => st
  | .if_false _ _ => st
  | .read d =>
      match st.input with
      | [] => { st with env := upd st.env d 0 }
      | v :: rest => { st with env := upd st.env d v, input := rest }
  | .write a => { st with output := st.output ++ [evalOperand st.env a] }

/-- Index of the instruction `label l` in the program (program length if
absent, which halts execution). -/
def findLabel (p : List Instr) (l : String) : Nat :=
  (p.findIdx? fun i =>
    match i with
    | .label l2 => l2 = l
    | _ => false).getD p.length

/-- Program counter after executing instruction `i` at `pc`
(spec §4.4: `goto` and `if_false` branch by label; `if_false` branches when
the condition value is 0, i.e. false). -/
def nextPc (p : List Instr) (pc : Nat) (i : Instr) (st : St) : Nat :=
  match i with
  | .goto l => findLabel p l
  | .if_false c l => if evalOperand st.env c = 0 then findLabel p l else pc + 1
  | _ => pc + 1

/-- A conforming TAC interpreter: fuel-bounded small-step execution from a
program counter.  `none` means the fuel ran out; running off the end of the
program halts with the current state. -/
def runTac (fuel : Nat) (p : List Instr) (pc : Nat) (st : St) : Option St :=
  if _h : pc < p.length then
    match fuel with
    | 0 => none
    | fuel + 1 =>
        let i := p[pc]
        runTac fuel p (nextPc p pc i st) (stepInstr i st)
  else
    some st

/-- Straight-line (fold) semantics of a TAC sequence: execute the instructions
in textual order.  On programs without control-flow instructions this agrees
with `runTac` (proved below). -/
def execList (p : List Instr) (st : St) : St :=
  p.foldl (fun s i => stepInstr i s) st

/-- `true` when the instruction is not a control-flow instruction. -/
def notControl : Instr → Bool
  | .label _ => false
  | .goto _ => false
  | .if_false _ _ => false
  | _ => true

/-- A TAC sequence is straight-line when it contains no labels or branches. -/
def noControlFlow (p : List Instr) : Bool :=
  p.all notControl

/-- Temporaries are the compiler-introduced `tempN` names (spec §3):
the names starting with `temp`. -/
def isTemp (x : String) : Bool :=
  x.data.take 4 == "temp".data

/-! ## The optimizer, modelled from spec §4.5 -/

/-- Modelled from the spec (§4.5 pass 1, int2float inlining): an `int2float`
whose operand is a literal folds into a direct assignment of a float literal. -/
def foldI2F : Instr → Instr
  | .int2float d (.lit _ v txt) => .assign d (.lit .float v (txt ++ ".0"))
  | i => i

/-- `true` when the operand is the literal with value `q`. -/
def isLitVal (q : ℚ) : Operand → Bool
  | .lit _ v _ => v = q
  | _ => false

/-- Modelled from the spec (§4.5 pass 3, algebraic simplification): identity
operations — multiply/divide by 1, add/subtract 0 — on literal operands are
replaced with a direct assignment. -/
def algSimp : Instr → Instr
  | .binop d o a b =>
      if (o = .mul ∨ o = .div) ∧ isLitVal 1 b then .assign d a
      else if o = .mul ∧ isLitVal 1 a then .assign d b
      else if (o = .add ∨ o = .sub) ∧ isLitVal 0 b then .assign d a
      else if o = .add ∧ isLitVal 0 a then .assign d b
      else .binop d o a b
  | i => i

/-- `true` when operand `o` reads variable `x`. -/
def opUses (x : String) : Operand → Bool
  | .var y => y = x
  | _ => false

/-- `true` when instruction `i` reads variable `x` in one of its source
operand positions. -/
def readsVar (x : String) : Instr → Bool
  | .assign _ s => opUses x s
  | .binop _ _ a b => opUses x a || opUses x b
  | .int2float _ a => opUses x a
  | .if_false c _ => opUses x c
  | .write a => opUses x a
  | _ => false

/-- Number of source-operand occurrences of variable `x` in instruction `i`. -/
def usesCount (x : String) : Instr → Nat
  | .assign _ s => if opUses x s then 1 else 0
  | .binop _ _ a b => (if opUses x a then 1 else 0) + (if opUses x b then 1 else 0)
  | .int2float _ a => if opUses x a then 1 else 0
  | .if_false c _ => if opUses x c then 1 else 0
  | .write a => if opUses x a then 1 else 0
  | _ => 0

/-- The variable written by an instruction, when there is one. -/
def defsVar : Instr → Option String
  | .assign d _ => some d
  | .binop d _ _ _ => some d
  | .int2float d _ => some d
  | .read d => some d
  | _ => none

/-- `true` for instructions with no side effect beyond their result variable
(spec §4.5 pass 4: read/write/label/branch are never eliminated). -/
def pureInstr : Instr → Bool
  | .assign _ _ => true
  | .binop _ _ _ _ => true
  | .int2float _ _ => true
  | _ => false

/-- Substitute operand `src` for variable `t` in a single operand. -/
def opSubst (t : String) (src : Operand) : Operand → Operand
  | .var y => if y = t then src else .var y
  | o => o

/-- Substitute operand `src` for variable `t` in the source-operand positions
of an instruction (result/label positions are untouched). -/
def substReads (t : String) (src : Operand) : Instr → Instr
  | .assign d s => .assign d (opSubst t src s)
  | .binop d o a b => .binop d o (opSubst t src a) (opSubst t src b)
  | .int2float d a => .int2float d (opSubst t src a)
  | .if_false c l => .if_false (opSubst t src c) l
  | .write a => .write (opSubst t src a)
  | i => i

/-- `true` when instruction `j` writes the variable that operand `src` reads
(always `false` for a literal source). -/
def srcKilled (src : Operand) (j : Instr) : Bool :=
  match src with
  | .var y => defsVar j == some y
  | .lit _ _ _ => false

/-- `true` when `t` is not read in the list before being redefined: every
instruction up to and including the first redefinition of `t` has no source
occurrence of `t` (a read at the redefining instruction itself still reads the
old value, so it counts); reads after a redefinition are unconstrained. -/
def noUseBeforeRedef (t : String) : List Instr → Bool
  | [] => true
  | j :: rest =>
      usesCount t j == 0 && (defsVar j == some t || noUseBeforeRedef t rest)

/-- Modelled from the spec (§4.5 pass 2, copy propagation): having seen the
definition `t := src`, scan the downstream instructions for the unique use of
`t` occurring before any redefinition of `t`; on success return the downstream
list with `src` substituted at that use site.  Following the contract that the
rewrite preserves observable behavior (§4.5) and the glossary's
"most recently and unambiguously assigned" reading, the scan also requires the
source value not to be overwritten between definition and use.  Returns `none`
when the conditions fail. -/
def cpFind (t : String) (src : Operand) : List Instr → Option (List Instr)
  | [] => none
  | j :: rest =>
      if usesCount t j == 0 then
        if defsVar j == some t then none
        else if srcKilled src j then none
        else (cpFind t src rest).map (j :: ·)
      else if usesCount t j == 1 then
        if noUseBeforeRedef t rest then some (substReads t src j :: rest) else none
      else none

/-- Modelled from the spec (§4.5 pass 2): apply the first enabled
copy-propagation rewrite — drop a plain assignment `t := src` of a temporary
and substitute `src` at the unique use site. -/
def cpOnce : List Instr → List Instr
  | [] => []
  | i :: rest =>
      match i with
      | .assign d s =>
          if isTemp d && !opUses d s then
            match cpFind d s rest with
            | some rest2 => rest2
            | none => i :: cpOnce rest
          else i :: cpOnce rest
      | _ => i :: cpOnce rest

/-- Modelled from the spec (§4.5 pass 4): an instruction is dead when it has no
side effect and its result temporary is never subsequently read. -/
def deadAt (i : Instr) (rest : List Instr) : Bool :=
  pureInstr i &&
    match defsVar i with
    | some d => isTemp d && rest.all fun j => !readsVar d j
    | none => false

/-- Modelled from the spec (§4.5 pass 4, dead code elimination): remove the
first dead instruction. -/
def dceOnce : List Instr → List Instr
  | [] => []
  | i :: rest => if deadAt i rest then rest else i :: dceOnce rest

/-- Termination measure for the optimizer's fixed-point iteration: every
productive pass application strictly decreases it. -/
def instrWeight (i : Instr) : Nat :=
  match i with
  | .int2float _ _ => 2
  | .binop _ _ _ _ => 2
  | _ => 1

/-- Sum of instruction weights of a TAC sequence. -/
def optMeasure (p : List Instr) : Nat :=
  (p.map instrWeight).sum

/-- Modelled from the spec (§4.5): one round of the four optimizer passes,
applied in the specified order — int2float inlining, copy propagation,
algebraic simplification, dead code elimination. -/
def optStep (p : List Instr) : List Instr :=
  dceOnce ((cpOnce (p.map foldI2F)).map algSimp)

/-- Iterate `optStep` until it makes no change, bounded by fuel. -/
def iterOpt : Nat → List Instr → List Instr
  | 0, p => p
  | n + 1, p =>
      let q := optStep p
      if q = p then p else iterOpt n q

/-- Modelled from the spec (§4.5): the optimizer — the passes applied in order
and iterated to a fixed point.  The fuel `optMeasure p + 1` always suffices
(each productive round strictly decreases `optMeasure`, proved below).
The per-pass statistics of the spec are counts derivable from the rewrites and
are not needed by the claims, so they are not materialised here. -/
def optimize (p : List Instr) : List Instr :=
  iterOpt (optMeasure p + 1) p

/-! ## Observable equivalence of TAC states -/

/-- Observable equivalence of interpreter states: same remaining input, same
ordered write output, and the same value for every non-temporary variable
(temporaries are compiler-internal and never user-visible, spec glossary). -/
def RelSt (s1 s2 : St) : Prop :=
  s1.input = s2.input ∧ s1.output = s2.output ∧
    ∀ x, isTemp x = false → s1.env x = s2.env x

/-- States that agree everywhere except possibly at variable `t`. -/
def AgreeExcept (t : String) (s1 s2 : St) : Prop :=
  s1.input = s2.input ∧ s1.output = s2.output ∧
    ∀ x, x ≠ t → s1.env x = s2.env x

/-- Overwrite the value of `t` in a state. -/
def updSt (t : String) (v : ℚ) (st : St) : St :=
  { st with env := upd st.env t v }

/-! ## AST and semantic analyzer, modelled from spec §3/§4.3 -/

/-- Modelled from the spec: toyc expressions (spec §3 AST Node, expression
variants): integer and float literals, identifiers, binary operations, and the
`Int2Float` coercion node inserted only by semantic analysis. -/
inductive Expr where
  | num (v : Int)
  | flt (v : ℚ)
  | ident (name : String)
  | binop (op : BinOp) (l r : Expr)
  | i2f (e : Expr)
deriving DecidableEq, Repr

/-- Modelled from the spec: toyc statements (spec §3 AST Node, statement
variants).  Statement lists are modelled as `skip`/`seq` chains; the optional
else-branch of `If` is split into two constructors so the type stays a plain
inductive. -/
inductive Stmt where
  | skip
  | seq (a b : Stmt)
  | assign (name : String) (e : Expr)
  | ifThen (cond : Expr) (thenB : Stmt)
  | ifElse (cond : Expr) (thenB : Stmt) (elseB : Stmt)
  | repeatUntil (body : Stmt) (cond : Expr)
  | readS (name : String)
  | writeS (e : Expr)
deriving DecidableEq, Repr

/-- Symbol tables map identifiers to their inferred type (spec §3). -/
def SymTable : Type := String → Option Ty

/-- Update a symbol table. -/
def updSym (g : SymTable) (x : String) (t : Ty) : SymTable :=
  fun y => if y = x then some t else g y

/-- The dominant type of mixed arithmetic: float wins (spec §4.3). -/
def lubTy : Ty → Ty → Ty
  | .int, .int => .int
  | _, _ => .float

/-- `true` for comparison and logical operators. -/
def isCmpOrLogic : BinOp → Bool
  | .lt => true | .gt => true | .le => true | .ge => true
  | .eq => true | .ne => true | .land => true | .lor => true
  | _ => false

/-- Result type of a binary operator applied at operand type `t`: comparison
and logical operators yield the numeric 0/1 results as int, arithmetic keeps
the operand type (spec §4.3). -/
def resultTy (o : BinOp) (t : Ty) : Ty :=
  if isCmpOrLogic o then .int else t

/-- `true` when the expression's root is an `Int2Float` node. -/
def isI2F : Expr → Bool
  | .i2f _ => true
  | _ => false

/-- `true` when the expression contains no `Int2Float` node anywhere — the
shape of every parser-produced tree, since only semantic analysis inserts
coercions (spec §3). -/
def noI2F : Expr → Bool
  | .num _ => true
  | .flt _ => true
  | .ident _ => true
  | .binop _ l r => noI2F l && noI2F r
  | .i2f _ => false

/-- Static type of an analyzed expression under a symbol table (unknown
identifiers default to int; the analyzer never returns them). -/
def tyOfA (g : SymTable) : Expr → Ty
  | .num _ => .int
  | .flt _ => .float
  | .ident x => (g x).getD .int
  | .binop o l r => resultTy o (lubTy (tyOfA g l) (tyOfA g r))
  | .i2f _ => .float

/-- Modelled from the spec (§4.3): analyze an expression under a symbol table;
returns the annotated expression and its type, or the name of an identifier
with no recorded type.  At a `BinaryOp` both sides are analyzed; if their types
differ the int-typed side is wrapped in an `Int2Float` node — never the
reverse. -/
def analyzeExpr (g : SymTable) : Expr → Except String (Expr × Ty)
  | .num v => .ok (.num v, .int)
  | .flt v => .ok (.flt v, .float)
  | .ident x =>
      match g x with
      | some t => .ok (.ident x, t)
      | none => .error x
  | .binop o l r => do
      let (l2, tl) ← analyzeExpr g l
      let (r2, tr) ← analyzeExpr g r
      if tl = tr then
        .ok (.binop o l2 r2, resultTy o tl)
      else if tl = .int then
        .ok (.binop o (.i2f l2) r2, resultTy o .float)
      else
        .ok (.binop o l2 (.i2f r2), resultTy o .float)
  | .i2f e => do
      let (e2, _) ← analyzeExpr g e
      .ok (.i2f e2, .float)

/-- The expression under a root `Int2Float` wrap, if any. -/
def unwrapI2F : Expr → Expr
  | .i2f c => c
  | e => e

/-- Decidable check of the coercion discipline on an analyzed expression:
at every `BinaryOp` whose operands have different underlying numeric types
exactly one operand is wrapped in exactly one `Int2Float` node (never both,
and never a wrap directly inside a wrap), the wrapped operand is the
int-typed one, a float-typed operand is never wrapped, and operands of equal
type are left unwrapped. -/
def coercedOK (g : SymTable) : Expr → Bool
  | .binop _ l r =>
      coercedOK g l && coercedOK g r &&
      (if isI2F l && isI2F r then false
       else if isI2F l then tyOfA g (unwrapI2F l) == Ty.int && tyOfA g r == Ty.float
       else if isI2F r then tyOfA g (unwrapI2F r) == Ty.int && tyOfA g l == Ty.float
       else tyOfA g l == tyOfA g r)
  | .i2f c => !isI2F c && tyOfA g c == Ty.int && coercedOK g c
  | _ => true

/-- Modelled from the spec (§4.3): analyze a statement, threading the symbol
table: the first assignment to a variable fixes its type, later assignments
coerce toward float; `read` requires the identifier's type to be known in
advance; branch and loop bodies are walked in order. -/
def analyzeStmt (g : SymTable) : Stmt → Except String (Stmt × SymTable)
  | .skip => .ok (.skip, g)
  | .seq a b => do
      let (a2, g1) ← analyzeStmt g a
      let (b2, g2) ← analyzeStmt g1 b
      .ok (.seq a2 b2, g2)
  | .assign x e => do
      let (e2, t) ← analyzeExpr g e
      match g x with
      | none => .ok (.assign x e2, updSym g x t)
      | some t0 =>
          if t0 = .float ∧ t = .int then .ok (.assign x (.i2f e2), g)
          else if t0 = .int ∧ t = .float then .ok (.assign x e2, updSym g x .float)
          else .ok (.assign x e2, g)
  | .ifThen c s => do
      let (c2, _) ← analyzeExpr g c
      let (s2, g1) ← analyzeStmt g s
      .ok (.ifThen c2 s2, g1)
  | .ifElse c s1 s2 => do
      let (c2, _) ← analyzeExpr g c
      let (a2, g1) ← analyzeStmt g s1
      let (b2, g2) ← analyzeStmt g1 s2
      .ok (.ifElse c2 a2 b2, g2)
  | .repeatUntil b c => do
      let (b2, g1) ← analyzeStmt g b
      let (c2, _) ← analyzeExpr g1 c
      .ok (.repeatUntil b2 c2, g1)
  | .readS x =>
      match g x with
      | some _ => .ok (.readS x, g)
      | none => .error x
  | .writeS e => do
      let (e2, _) ← analyzeExpr g e
      .ok (.writeS e2, g)

/-- Identifiers an expression uses that are not in the already-defined list. -/
def undefExpr (defined : List String) : Expr → List String
  | .num _ => []
  | .flt _ => []
  | .ident x => if x ∈ defined then [] else [x]
  | .binop _ l r => undefExpr defined l ++ undefExpr defined r
  | .i2f e => undefExpr defined e

/-- Modelled from the spec (§4.3): the undefined-variable pre-pass walk over a
statement; returns the defined-variable list after the statement together with
every identifier used before any assignment or declaration to it, in the same
order the analyzer visits the tree. -/
def undefStmt (defined : List String) : Stmt → List String × List String
  | .skip => (defined, [])
  | .seq a b =>
      let (d1, u1) := undefStmt defined a
      let (d2, u2) := undefStmt d1 b
      (d2, u1 ++ u2)
  | .assign x e => (x :: defined, undefExpr defined e)
  | .ifThen c s =>
      let u0 := undefExpr defined c
      let (d1, u1) := undefStmt defined s
      (d1, u0 ++ u1)
  | .ifElse c s1 s2 =>
      let u0 := undefExpr defined c
      let (d1, u1) := undefStmt defined s1
      let (d2, u2) := undefStmt d1 s2
      (d2, u0 ++ u1 ++ u2)
  | .repeatUntil b c =>
      let (d1, u1) := undefStmt defined b
      (d1, u1 ++ undefExpr d1 c)
  | .readS x => (x :: defined, if x ∈ defined then [] else [x])
  | .writeS e => (defined, undefExpr defined e)

/-- Modelled from the spec (§4.3): the named list of variables used before
being defined, surfaced to the caller before full analysis proceeds. -/
def undefinedVars (s : Stmt) : List String :=
  (undefStmt [] s).2

/-! ## Direct executor, modelled from spec §4.7 -/

/-- Direct-execution state: variable values, remaining pre-supplied input
values, and the ordered write output. -/
structure ExecSt where
  vars : String → ℚ
  input : List ℚ
  output : List ℚ

/-- Value of an expression under a variable valuation (the analyzed tree is
evaluated; `Int2Float` keeps the underlying value). -/
def evalE (env : String → ℚ) : Expr → ℚ
  | .num v => (v : ℚ)
  | .flt v => v
  | .ident x => env x
  | .binop o l r => evalOp o (evalE env l) (evalE env r)
  | .i2f e => evalE env e

/-- Modelled from the spec (§4.7): fuel-bounded direct execution of a
statement.  `repeat`-`until` executes the body, then evaluates the condition
and loops while it is false (value 0), stopping when it becomes true; `read`
consumes the next pre-supplied value.  `none` means the fuel ran out. -/
def execS : Nat → Stmt → ExecSt → Option ExecSt
  | 0, _, _ => none
  | _ + 1, .skip, st => some st
  | f + 1, .seq a b, st => (execS f a st).bind (execS f b)
  | _ + 1, .assign x e, st =>
      some { st with vars := upd st.vars x (evalE st.vars e) }
  | f + 1, .ifThen c s, st =>
      if evalE st.vars c = 0 then some st else execS f s st
  | f + 1, .ifElse c s1 s2, st =>
      if evalE st.vars c = 0 then execS f s2 st else execS f s1 st
  | f + 1, .repeatUntil b c, st =>
      (execS f b st).bind fun st1 =>
        if evalE st1.vars c = 0 then execS f (.repeatUntil b c) st1 else some st1
  | _ + 1, .readS x, st =>
      match st.input with
      | [] => some { st with vars := upd st.vars x 0 }
      | v :: rest => some { st with vars := upd st.vars x v, input := rest }
  | _ + 1, .writeS e, st =>
      some { st with output := st.output ++ [evalE st.vars e] }

/-- Modelled from the spec (§4.7): the annotation the direct executor attaches
to a `RepeatUntil` node — the number of iterations run together with the state
after the loop.  It runs the body once, stops when the condition has become
true, and otherwise loops, counting iterations. -/
def annRepeat : Nat → Stmt → Expr → ExecSt → Option (Nat × ExecSt)
  | 0, _, _, _ => none
  | f + 1, b, c, st =>
      (execS f b st).bind fun st1 =>
        if evalE st1.vars c = 0 then
          (annRepeat f b c st1).map fun p => (p.1 + 1, p.2)
        else
          some (1, st1)

/-! ## ICG generator, modelled from spec §4.4 -/

/-- Temporary/label counters threaded through TAC generation (spec §4.4,
design note on explicit generator state). -/
structure Gen where
  temps : Nat
  labels : Nat
deriving DecidableEq, Repr

/-- The next temporary name `tempN`. -/
def freshTemp (g : Gen) : String × Gen :=
  ("temp" ++ toString (g.temps + 1), { g with temps := g.temps + 1 })

/-- The next label name `LN`. -/
def freshLabel (g : Gen) : String × Gen :=
  ("L" ++ toString (g.labels + 1), { g with labels := g.labels + 1 })

/-- Textual form of an integer literal. -/
def intTxt (v : Int) : String := toString v

/-- Modelled from the spec (§4.4): linearize an expression into TAC, returning
the operand holding its value, the emitted instructions, and the updated
counters.  Every `BinaryOp`/`Int2Float` result gets a fresh temporary;
evaluation order is strictly left then right. -/
def icgExpr : Expr → Gen → Operand × List Instr × Gen
  | .num v, g => (.lit .int (v : ℚ) (intTxt v), [], g)
  | .flt v, g => (.lit .float v (toString v), [], g)
  | .ident x, g => (.var x, [], g)
  | .binop o l r, g =>
      let (a, cl, g1) := icgExpr l g
      let (b, cr, g2) := icgExpr r g1
      let (t, g3) := freshTemp g2
      (.var t, cl ++ cr ++ [.binop t o a b], g3)
  | .i2f e, g =>
      let (a, c, g1) := icgExpr e g
      let (t, g2) := freshTemp g1
      (.var t, c ++ [.int2float t a], g2)

/-- Modelled from the spec (§4.4): linearize a statement into TAC.  `if`
lowers to a conditional skip with labels; `repeat`-`until` lowers to a body
label, the body code, the condition evaluation, and `if_false cond goto
L_body`. -/
def icgStmt : Stmt → Gen → List Instr × Gen
  | .skip, g => ([], g)
  | .seq a b, g =>
      let (ca, g1) := icgStmt a g
      let (cb, g2) := icgStmt b g1
      (ca ++ cb, g2)
  | .assign x e, g =>
      let (a, c, g1) := icgExpr e g
      (c ++ [.assign x a], g1)
  | .ifThen c s, g =>
      let (a, cc, g1) := icgExpr c g
      let (lEnd, g2) := freshLabel g1
      let (cs, g3) := icgStmt s g2
      (cc ++ [.if_false a lEnd] ++ cs ++ [.label lEnd], g3)
  | .ifElse c s1 s2, g =>
      let (a, cc, g1) := icgExpr c g
      let (lElse, g2) := freshLabel g1
      let (lEnd, g3) := freshLabel g2
      let (c1, g4) := icgStmt s1 g3
      let (c2, g5) := icgStmt s2 g4
      (cc ++ [.if_false a lElse] ++ c1 ++ [.goto lEnd, .label lElse] ++ c2 ++ [.label lEnd], g5)
  | .repeatUntil b c, g =>
      let (lBody, g1) := freshLabel g
      let (cb, g2) := icgStmt b g1
      let (a, cc, g3) := icgExpr c g2
      ([.label lBody] ++ cb ++ cc ++ [.if_false a lBody], g3)
  | .readS x, g => ([.read x], g)
  | .writeS e, g =>
      let (a, c, g1) := icgExpr e g
      (c ++ [.write a], g1)

/-! ## Code generator, modelled from spec §4.6 and the backend README -/

/-- An assembly instruction: mnemonic and operand list (spec §3); the rendered
text is the derived view `renderAsm`. -/
structure Asm where
  mnemonic : String
  operands : List String
deriving DecidableEq, Repr

/-- Rendered text of an assembly instruction. -/
def renderAsm (a : Asm) : String :=
  a.mnemonic ++ " " ++ String.intercalate ", " a.operands

/-- Textual form of a TAC operand: literals carry the `#` sentinel. -/
def renderOperand : Operand → String
  | .lit _ _ txt => "#" ++ txt
  | .var x => x

/-- `true` when the operand is a literal. -/
def isLit : Operand → Bool
  | .lit _ _ _ => true
  | _ => false

/-- `true` when the operand is float-typed under the given type map. -/
def opIsFloat (tm : String → Ty) : Operand → Bool
  | .lit ty _ _ => ty == .float
  | .var x => tm x == .float

/-- Mnemonic suffix: `F` on the float variants. -/
def fSuffix (fl : Bool) : String := if fl then "F" else ""

/-- Arithmetic mnemonic stem for the supported operators. -/
def arithMnemonic : BinOp → String
  | .add => "ADD"
  | .sub => "SUB"
  | .mul => "MUL"
  | .div => "DIV"
  | .mod => "MOD"
  | _ => ""

/-- `true` for the arithmetic operators code generation supports. -/
def isArith : BinOp → Bool
  | .add => true | .sub => true | .mul => true | .div => true | .mod => true
  | _ => false

/-- Modelled from the spec (§4.6) and the backend README: generate assembly
for one TAC instruction, or a capability error.  Only straight-line
arithmetic/assignment TAC is in scope: control flow, I/O, comparison/logical
operators and residual type conversions are rejected.  For commutative
operators (`+`, `*`) a literal first operand is swapped with a non-literal
second operand so the non-literal is loaded first and the literal folds into
the immediate; literal-to-identifier assignment is a single store. -/
def codegenInstr (tm : String → Ty) : Instr → Except String (List Asm)
  | .assign d s =>
      let fl := opIsFloat tm s || (tm d == .float)
      match s with
      | .lit _ _ txt => .ok [⟨"STR" ++ fSuffix fl, [d, "#" ++ txt]⟩]
      | .var y =>
          .ok [⟨"LOAD" ++ fSuffix fl, ["R1", y]⟩, ⟨"STR" ++ fSuffix fl, [d, "R1"]⟩]
  | .binop d o a b =>
      if isArith o then
        let fl := opIsFloat tm a || opIsFloat tm b || (tm d == .float)
        let swap := (o = .add ∨ o = .mul) ∧ isLit a ∧ ¬ (isLit b = true)
        let x := if swap then b else a
        let y := if swap then a else b
        let loadX : Asm := ⟨"LOAD" ++ fSuffix fl, ["R1", renderOperand x]⟩
        let arith : List Asm :=
          match y with
          | .lit _ _ txt => [⟨arithMnemonic o ++ fSuffix fl, ["R1", "R1", "#" ++ txt]⟩]
          | .var z =>
              [⟨"LOAD" ++ fSuffix fl, ["R2", z]⟩,
               ⟨arithMnemonic o ++ fSuffix fl, ["R1", "R1", "R2"]⟩]
        .ok ([loadX] ++ arith ++ [⟨"STR" ++ fSuffix fl, [d, "R1"]⟩])
      else .error "codegen: comparison and logical operators are not supported"
  | .int2float _ _ => .error "codegen: type conversion instructions are not supported"
  | .label _ => .error "codegen: control flow is not supported"
  | .goto _ => .error "codegen: control flow is not supported"
  | .if_false _ _ => .error "codegen: control flow is not supported"
  | .read _ => .error "codegen: I/O instructions are not supported"
  | .write _ => .error "codegen: I/O instructions are not supported"

/-- Modelled from the spec (§4.6): code generation over a TAC sequence — the
concatenated per-instruction assembly, or the first capability error. -/
def codegen (tm : String → Ty) : List Instr → Except String (List Asm)
  | [] => .ok []
  | i :: rest => do
      let a ← codegenInstr tm i
      let r ← codegen tm rest
      .ok (a ++ r)

/-- `true` when a TAC instruction is outside the code generator's capability
as named by the claim: control flow, I/O, or a comparison operator. -/
def unsupportedInstr : Instr → Bool
  | .label _ => true
  | .goto _ => true
  | .if_false _ _ => true
  | .read _ => true
  | .write _ => true
  | .binop _ o _ _ => isCmpOrLogic o
  | _ => false

/-! ## Lexer, modelled from spec §4.1 -/

/-- Token kinds (spec §3).  Keyword and operator kinds are grouped under one
constructor each carrying the lexeme; positions are diagnostic metadata not
needed by the claims and are omitted from the model. -/
inductive TokKind where
  | number
  | float
  | identifier
  | keyword
  | op
  | illegal
  | eof
deriving DecidableEq, Repr

/-- A token: kind and literal text (spec §3). -/
structure Token where
  kind : TokKind
  literal : String
deriving DecidableEq, Repr

/-- One unit of lexer progress: an emitted token, or skipped text
(whitespace or a comment). -/
inductive Item where
  | tok (t : Token)
  | skip (s : String)
deriving DecidableEq, Repr

/-- Lexical errors: only an unterminated block comment is fatal (spec §4.1). -/
inductive LexErr where
  | unterminatedComment
deriving DecidableEq, Repr

/-- The characters an item accounts for. -/
def itemChars : Item → List Char
  | .tok t => t.literal.data
  | .skip s => s.data

/-- Concatenation of the characters of all items. -/
def itemsChars (items : List Item) : List Char :=
  (items.map itemChars).flatten

/-- The tokens among the items. -/
def itemsTokens (items : List Item) : List Token :=
  items.filterMap fun it =>
    match it with
    | .tok t => some t
    | .skip _ => none

/-- Whitespace characters skipped by the lexer. -/
def isWs (c : Char) : Bool :=
  c == ' ' || c == '\t' || c == '\n' || c == '\r'

/-- Identifier continuation characters: alphanumeric or underscore. -/
def isIdChar (c : Char) : Bool :=
  c.isAlphanum || c == '_'

/-- The toyc keyword table (spec §4.2). -/
def keywords : List String :=
  ["if", "then", "else", "end", "repeat", "until", "read", "write"]

/-- Single-character operators and delimiters (spec §4.1). -/
def singleOps : List Char :=
  ['+', '-', '*', '/', '%', '<', '>', '(', ')', ';']

/-- Split a character list at the first occurrence of `ch`: the characters
before it and the characters after it. -/
def breakAt (ch : Char) : List Char → Option (List Char × List Char)
  | [] => none
  | c :: cs =>
      if c = ch then some ([], cs)
      else (breakAt ch cs).map fun p => (c :: p.1, p.2)

/-- `true` when the character starts no lexical rule: not whitespace, not a
comment opener, not a digit, letter or operator/delimiter character. -/
def unrecognizedChar (c : Char) : Bool :=
  !(isWs c) && !(c.isDigit) && !(c.isAlpha) && !(c ∈ singleOps) &&
    !(c == ':') && !(c == '=') && !(c == '!') && !(c == '&') && !(c == '|') &&
    !(c == '\x7b')

/-- The multi-character operator starting at `c` followed by `d`, when there
is one (spec §4.1: `:=`, `<=`, `>=`, `==`, `!=`, `&&`, `||`). -/
def twoCharOp (c : Char) (d : Option Char) : Option String :=
  if c = ':' ∧ d = some '=' then some ":="
  else if c = '<' ∧ d = some '=' then some "<="
  else if c = '>' ∧ d = some '=' then some ">="
  else if c = '=' ∧ d = some '=' then some "=="
  else if c = '!' ∧ d = some '=' then some "!="
  else if c = '&' ∧ d = some '&' then some "&&"
  else if c = '|' ∧ d = some '|' then some "||"
  else none

/-- Modelled from the spec (§4.1): one scanner step at character `c` with
remaining input `cs`: classifies a digit run as NUMBER, digits-dot-digits as
FLOAT, a letter-led alphanumeric/underscore run as an identifier reclassified
against the keyword table, a maximal-munch two-character operator before
single-character ones; skips one whitespace character, a `%%` line comment or
a `\x7b ... \x7d` block comment (failing on an unterminated block comment);
any character matching no rule yields an ILLEGAL token without aborting the
scan.  Returns the produced item and the remaining input. -/
def lexStep (c : Char) (cs : List Char) : Except LexErr (Item × List Char) :=
  if isWs c then .ok (.skip ⟨[c]⟩, cs)
  else if c == '%' && cs.head? == some '%' then
    .ok (.skip ⟨'%' :: '%' :: (cs.drop 1).takeWhile (fun d => !(d == '\n'))⟩,
      (cs.drop 1).dropWhile (fun d => !(d == '\n')))
  else if c == '\x7b' then
    match breakAt '\x7d' cs with
    | none => .error .unterminatedComment
    | some (t, r) => .ok (.skip ⟨'\x7b' :: (t ++ ['\x7d'])⟩, r)
  else if c.isDigit then
    match cs.dropWhile Char.isDigit with
    | '.' :: d2 :: r2 =>
        if d2.isDigit then
          .ok (.tok ⟨.float,
            ⟨c :: cs.takeWhile Char.isDigit ++ '.' :: (d2 :: r2).takeWhile Char.isDigit⟩⟩,
            (d2 :: r2).dropWhile Char.isDigit)
        else
          .ok (.tok ⟨.number, ⟨c :: cs.takeWhile Char.isDigit⟩⟩, '.' :: d2 :: r2)
    | r1 => .ok (.tok ⟨.number, ⟨c :: cs.takeWhile Char.isDigit⟩⟩, r1)
  else if c.isAlpha then
    .ok (.tok ⟨if ((⟨c :: cs.takeWhile isIdChar⟩ : String) ∈ keywords) then .keyword
               else .identifier,
      ⟨c :: cs.takeWhile isIdChar⟩⟩, cs.dropWhile isIdChar)
  else
    match twoCharOp c cs.head? with
    | some opTxt => .ok (.tok ⟨.op, opTxt⟩, cs.drop 1)
    | none =>
        if c ∈ singleOps then .ok (.tok ⟨.op, ⟨[c]⟩⟩, cs)
        else .ok (.tok ⟨.illegal, ⟨[c]⟩⟩, cs)

/-- Modelled from the spec (§4.1): the scanner driver.  Fuel-bounded (any
fuel above the input length suffices, proved below); at the end of input it
appends the EOF token; otherwise it performs one `lexStep` and continues on
the remaining input.  The returned item list carries tokens and skipped text
in source order. -/
def lexRun : Nat → List Char → Option (Except LexErr (List Item))
  | 0, _ => none
  | _ + 1, [] => some (.ok [.tok ⟨.eof, ""⟩])
  | f + 1, c :: cs =>
      match lexStep c cs with
      | .error e => some (.error e)
      | .ok (it, r) => (lexRun f r).map (Except.map (it :: ·))

/-- Modelled from the spec (§4.1): tokenize a source string with the standard
fuel (one unit per character plus one for EOF). -/
def tokenize (s : String) : Option (Except LexErr (List Item)) :=
  lexRun (s.length + 1) s.data

/-! ## Frontend embeddings (translated from the TypeScript sources) -/

/-- The structured ICG instruction record exchanged with the frontend
(`ICGInstruction` in `frontend/src/lib/api.ts`): a string operation and
optional argument/result/label fields, plus the backend-rendered text. -/
structure ICGInstruction where
  op : String
  arg1 : Option String := none
  arg2 : Option String := none
  result : Option String := none
  label : Option String := none
  instruction : String := ""
deriving DecidableEq, Repr

/-- JavaScript string coercion of a possibly-absent field: template literals
render `undefined` for a missing value. -/
def tsStr : Option String → String
  | none => "undefined"
  | some s => s

/-- JavaScript truthiness of a possibly-absent string: absent and empty
strings are falsy. -/
def truthyS : Option String → Bool
  | none => false
  | some s => !(s == "")

/-- `formatInstruction` from
`frontend/src/components/ICGVisualizer.tsx` (lines 36–58), translated
branch by branch. -/
def formatInstruction (i : ICGInstruction) : String :=
  if truthyS i.label then "label " ++ tsStr i.label ++ ":"
  else if i.op == "assign" then tsStr i.result ++ " = " ++ tsStr i.arg1
  else if i.op == "goto" then "goto " ++ tsStr i.arg1
  else if i.op == "if_false" then "if_false " ++ tsStr i.arg1 ++ " goto " ++ tsStr i.arg2
  else if i.op == "if_true" then "if_true " ++ tsStr i.arg1 ++ " goto " ++ tsStr i.arg2
  else if i.op == "read" then "read " ++ tsStr i.arg1
  else if i.op == "write" then "write " ++ tsStr i.arg1
  else if i.op == "int2float" then tsStr i.result ++ " = int2float(" ++ tsStr i.arg1 ++ ")"
  else if truthyS i.arg2 then
    tsStr i.result ++ " = " ++ tsStr i.arg1 ++ " " ++ i.op ++ " " ++ tsStr i.arg2
  else tsStr i.result ++ " = " ++ i.op ++ " " ++ tsStr i.arg1

/-- One row of the undefined-variables form in hybrid mode: the variable name
and the caller's textual value (`VariableInput` in
`frontend/src/components/UndefinedVariablesForm.tsx`; the type dropdown and
validity flag belong to standard mode and validation and are not needed
here). -/
structure VarInput where
  name : String
  value : String
deriving DecidableEq, Repr

/-- Hybrid-mode type inference from
`frontend/src/components/UndefinedVariablesForm.tsx` (line 85):
`input.value.includes('.') ? 'float' : 'int'`. -/
def inferType (value : String) : Ty :=
  if value.contains '.' then .float else .int

/-- The type record built by `handleSubmit` in hybrid mode
(`UndefinedVariablesForm.tsx` lines 79–87): every form row contributes its
name mapped to the type inferred from its textual value. -/
def hybridTypes (inputs : List VarInput) : List (String × Ty) :=
  inputs.map fun i => (i.name, inferType i.value)

/-- The symbol table seeded from the hybrid form's submissions, as handed to
re-analysis: each declared variable gets the type inferred from the supplied
text. -/
def seedSym (inputs : List VarInput) : SymTable :=
  fun x => (inputs.find? fun i => i.name == x).map fun i => inferType i.value

/-- A trace step as exchanged with the frontend (`TraceStep` in
`frontend/src/lib/api.ts`; the state snapshot is opaque to the playback
logic). -/
structure TraceStep where
  phase : String
  step_id : Nat
  description : String
deriving DecidableEq, Repr

/-- Playback state of the `useStepByStep` hook in
`frontend/src/lib/api.ts`: the current step index and whether playback is
running.  The index is an integer because `goToStep` accepts arbitrary
integers and `totalSteps - 1` is `-1` for an empty list. -/
structure Playback where
  cur : Int
  playing : Bool
deriving DecidableEq, Repr

/-- The control operations of `useStepByStep`: the exported controls plus the
interval tick of automatic playback. -/
inductive PbOp where
  | play
  | pause
  | next
  | prev
  | goTo (i : Int)
  | reset
  | tick
deriving DecidableEq, Repr

/-- One control operation of `useStepByStep` (`frontend/src/lib/api.ts`
lines 216–268), translated update by update for a list of `total` steps:
`nextStep` clamps to `totalSteps - 1`, `previousStep` to 0, `goToStep` clamps
into the range, `play` rewinds when already at the end, the interval tick
advances while playing and stops at the end, `reset` returns to step 0. -/
def pbStep (total : Int) : PbOp → Playback → Playback
  | .next, s => { s with cur := min (s.cur + 1) (total - 1) }
  | .prev, s => { s with cur := max (s.cur - 1) 0 }
  | .goTo i, s => { s with cur := max 0 (min i (total - 1)) }
  | .play, s => { cur := if total - 1 ≤ s.cur then 0 else s.cur, playing := true }
  | .pause, s => { s with playing := false }
  | .reset, _ => { cur := 0, playing := false }
  | .tick, s =>
      if s.playing then
        if total ≤ s.cur + 1 then { s with playing := false }
        else { s with cur := s.cur + 1 }
      else s

/-- Run a sequence of playback operations from the initial state
(`currentStep = 0`, not playing). -/
def pbRun (total : Int) (ops : List PbOp) : Playback :=
  ops.foldl (fun s o => pbStep total o s) ⟨0, false⟩

/-- The cumulative visible-steps list: `steps.slice(0, currentStep + 1)`
(`frontend/src/lib/api.ts` line 227). -/
def visibleSteps (steps : List TraceStep) (cur : Int) : List TraceStep :=
  steps.take (cur + 1).toNat

/-! # Theorems -/

/-! ## Basic environment lemmas -/

theorem upd_self (env : String → ℚ) (x : String) (v : ℚ) : upd env x v x = v := by
  simp [upd]

theorem upd_other (env : String → ℚ) (x : String) (v : ℚ) (y : String) (h : y ≠ x) :
    upd env x v y = env y := by
  simp [upd, h]

theorem upd_upd_same (env : String → ℚ) (x : String) (v w : ℚ) :
    upd (upd env x v) x w = upd env x w := by
  funext z
  by_cases h : z = x <;> simp [upd, h]

theorem upd_comm (env : String → ℚ) (x y : String) (v w : ℚ) (h : x ≠ y) :
    upd (upd env x v) y w = upd (upd env y w) x v := by
  funext z
  by_cases h1 : z = y <;> by_cases h2 : z = x <;> simp_all [upd]

/-! ## C10: playback state machine invariant -/

theorem pbStep_bounds (T : Int) (hT : 1 ≤ T) (o : PbOp) (s : Playback)
    (h : 0 ≤ s.cur ∧ s.cur ≤ T - 1) :
    0 ≤ (pbStep T o s).cur ∧ (pbStep T o s).cur ≤ T - 1 := by
  obtain ⟨h0, h1⟩ := h
  cases o with
  | next => simp only [pbStep]; omega
  | prev => simp only [pbStep]; omega
  | goTo i => simp only [pbStep]; omega
  | play =>
      simp only [pbStep]
      split <;> omega
  | pause => simpa [pbStep] using ⟨h0, h1⟩
  | reset => simp [pbStep]; omega
  | tick =>
      simp only [pbStep]
      split
      · split <;> simp <;> omega
      · exact ⟨h0, h1⟩

theorem pbRun_bounds (T : Int) (hT : 1 ≤ T) (ops : List PbOp) :
    0 ≤ (pbRun T ops).cur ∧ (pbRun T ops).cur ≤ T - 1 := by
  have main : ∀ (l : List PbOp) (s : Playback), 0 ≤ s.cur ∧ s.cur ≤ T - 1 →
      0 ≤ (l.foldl (fun s o => pbStep T o s) s).cur ∧
        (l.foldl (fun s o => pbStep T o s) s).cur ≤ T - 1 := by
    intro l
    induction l with
    | nil => intro s h; simpa using h
    | cons o rest ih =>
        intro s h
        simpa using ih (pbStep T o s) (pbStep_bounds T hT o s h)
  have h0 : (0 : Int) ≤ 0 ∧ (0 : Int) ≤ T - 1 := by omega
  simpa [pbRun] using main ops ⟨0, false⟩ h0

/-- C10: for every trace-step list given to the playback state machine and
every sequence of control operations (play, pause, next, previous, goToStep
with any integer, reset, automatic ticks), the current step index stays within
`[0, totalSteps - 1]` whenever the list is non-empty, and the visible-steps
list is always exactly the prefix of the input list of length
`currentStep + 1` — steps are never reordered, skipped or mutated during
replay or random seeking. -/
theorem playback_index_invariant (steps : List TraceStep) (ops : List PbOp)
    (h : steps ≠ []) :
    0 ≤ (pbRun (steps.length : Int) ops).cur ∧
    (pbRun (steps.length : Int) ops).cur ≤ (steps.length : Int) - 1 ∧
    visibleSteps steps (pbRun (steps.length : Int) ops).cur =
      steps.take ((pbRun (steps.length : Int) ops).cur.toNat + 1) ∧
    (visibleSteps steps (pbRun (steps.length : Int) ops).cur).length =
      (pbRun (steps.length : Int) ops).cur.toNat + 1 := by
  have hlen : 0 < steps.length := List.length_pos.mpr h
  have hT : (1 : Int) ≤ (steps.length : Int) := by exact_mod_cast hlen
  obtain ⟨h0, h1⟩ := pbRun_bounds (steps.length : Int) hT ops
  set c := (pbRun (steps.length : Int) ops).cur with hc
  have htn : (c + 1).toNat = c.toNat + 1 := by omega
  have hle : c.toNat + 1 ≤ steps.length := by omega
  refine ⟨h0, h1, ?_, ?_⟩
  · simp [visibleSteps, htn]
  · simp [visibleSteps, htn, List.length_take]
    omega

/-- Witness for C10 at a concrete step list and operation sequence. -/
theorem playback_index_invariant_witness :
    ([⟨"lexing", 0, "start"⟩, ⟨"lexing", 1, "scan"⟩] : List TraceStep) ≠ [] ∧
    0 ≤ (pbRun 2 [PbOp.play, PbOp.tick, PbOp.goTo 7, PbOp.prev]).cur ∧
    (pbRun 2 [PbOp.play, PbOp.tick, PbOp.goTo 7, PbOp.prev]).cur ≤ 2 - 1 ∧
    visibleSteps [⟨"lexing", 0, "start"⟩, ⟨"lexing", 1, "scan"⟩]
        (pbRun 2 [PbOp.play, PbOp.tick, PbOp.goTo 7, PbOp.prev]).cur =
      ([⟨"lexing", 0, "start"⟩, ⟨"lexing", 1, "scan"⟩] : List TraceStep).take
        ((pbRun 2 [PbOp.play, PbOp.tick, PbOp.goTo 7, PbOp.prev]).cur.toNat + 1) ∧
    (visibleSteps [⟨"lexing", 0, "start"⟩, ⟨"lexing", 1, "scan"⟩]
        (pbRun 2 [PbOp.play, PbOp.tick, PbOp.goTo 7, PbOp.prev]).cur).length =
      (pbRun 2 [PbOp.play, PbOp.tick, PbOp.goTo 7, PbOp.prev]).cur.toNat + 1 := by
  have h := playback_index_invariant
    [⟨"lexing", 0, "start"⟩, ⟨"lexing", 1, "scan"⟩]
    [PbOp.play, PbOp.tick, PbOp.goTo 7, PbOp.prev] (by decide)
  exact ⟨by decide, h⟩

/-- C8: the textual rendering of a structured TAC instruction record is a
deterministic function of the record's fields and follows the fixed formats:
a (truthily) labelled instruction renders as `label name:`, an operator
instruction as `result = arg1 op arg2`, a coercion as
`result = int2float(arg1)`, branches as `if_false arg1 goto arg2` and
`goto arg1`, and I/O as `read arg1` and `write arg1`; two records with equal
fields always render to the same text. -/
theorem formatInstruction_renders (i : ICGInstruction) :
    (∀ j : ICGInstruction, i = j → formatInstruction i = formatInstruction j) ∧
    (truthyS i.label = true →
      formatInstruction i = "label " ++ tsStr i.label ++ ":") ∧
    (truthyS i.label = false → i.op = "assign" →
      formatInstruction i = tsStr i.result ++ " = " ++ tsStr i.arg1) ∧
    (truthyS i.label = false → i.op = "goto" →
      formatInstruction i = "goto " ++ tsStr i.arg1) ∧
    (truthyS i.label = false → i.op = "if_false" →
      formatInstruction i = "if_false " ++ tsStr i.arg1 ++ " goto " ++ tsStr i.arg2) ∧
    (truthyS i.label = false → i.op = "read" →
      formatInstruction i = "read " ++ tsStr i.arg1) ∧
    (truthyS i.label = false → i.op = "write" →
      formatInstruction i = "write " ++ tsStr i.arg1) ∧
    (truthyS i.label = false → i.op = "int2float" →
      formatInstruction i = tsStr i.result ++ " = int2float(" ++ tsStr i.arg1 ++ ")") ∧
    (truthyS i.label = false →
      i.op ∉ ["assign", "goto", "if_false", "if_true", "read", "write", "int2float"] →
      truthyS i.arg2 = true →
      formatInstruction i =
        tsStr i.result ++ " = " ++ tsStr i.arg1 ++ " " ++ i.op ++ " " ++ tsStr i.arg2) := by
  refine ⟨fun j hj => by rw [hj], ?_, ?_, ?_, ?_, ?_, ?_, ?_, ?_⟩
  · intro hl; simp [formatInstruction, hl]
  · intro hl hop; simp [formatInstruction, hl, hop]
  · intro hl hop; simp [formatInstruction, hl, hop]
  · intro hl hop; simp [formatInstruction, hl, hop]
  · intro hl hop; simp [formatInstruction, hl, hop]
  · intro hl hop; simp [formatInstruction, hl, hop]
  · intro hl hop; simp [formatInstruction, hl, hop]
  · intro hl hn ha2
    have hs : i.op ≠ "assign" ∧ i.op ≠ "goto" ∧ i.op ≠ "if_false" ∧ i.op ≠ "if_true" ∧
        i.op ≠ "read" ∧ i.op ≠ "write" ∧ i.op ≠ "int2float" := by
      simp at hn
      tauto
    obtain ⟨n1, n2, n3, n4, n5, n6, n7⟩ := hs
    simp [formatInstruction, hl, ha2, n1, n2, n3, n4, n5, n6, n7]

/-- Witness for C8 at concrete records: a labelled record, a binary-operator
record, and a branch record. -/
theorem formatInstruction_renders_witness :
    formatInstruction ⟨"label", none, none, none, some "L1", ""⟩ = "label L1:" ∧
    formatInstruction ⟨">=", some "id1", some "#3", some "temp1", none, ""⟩ =
      "temp1 = id1 >= #3" ∧
    formatInstruction ⟨"if_false", some "temp1", some "L1", none, none, ""⟩ =
      "if_false temp1 goto L1" := by
  refine ⟨?_, ?_, ?_⟩
  · have h := (formatInstruction_renders ⟨"label", none, none, none, some "L1", ""⟩).2.1
    rw [h (by decide)]
    decide
  · have h := (formatInstruction_renders ⟨">=", some "id1", some "#3", some "temp1", none, ""⟩).2.2.2.2.2.2.2.2
    rw [h (by decide) (by decide) (by decide)]
    decide
  · have h := (formatInstruction_renders ⟨"if_false", some "temp1", some "L1", none, none, ""⟩).2.2.2.2.1
    rw [h (by decide) (by decide)]
    decide

/-! ## C2: coercion discipline of the semantic analyzer -/

theorem lubTy_self (t : Ty) : lubTy t t = t := by
  cases t <;> rfl

theorem analyzeExpr_not_i2f (g : SymTable) (e e2 : Expr) (t : Ty)
    (hno : noI2F e = true) (h : analyzeExpr g e = .ok (e2, t)) :
    isI2F e2 = false := by
  cases e with
  | num v => simp [analyzeExpr] at h; simp [← h.1, isI2F]
  | flt v => simp [analyzeExpr] at h; simp [← h.1, isI2F]
  | ident x =>
      cases hg : g x with
      | none => simp [analyzeExpr, hg] at h
      | some t0 => simp [analyzeExpr, hg] at h; simp [← h.1, isI2F]
  | binop o l r =>
      cases hl : analyzeExpr g l with
      | error m => simp [analyzeExpr, bind, Except.bind, hl] at h
      | ok pl =>
          cases hr : analyzeExpr g r with
          | error m => simp [analyzeExpr, bind, Except.bind, hl, hr] at h
          | ok pr =>
              simp only [analyzeExpr, bind, Except.bind, hl, hr] at h
              split at h <;> [skip; split at h] <;>
                simp at h <;> simp [← h.1, isI2F]
  | i2f e => simp [noI2F] at hno

theorem analyzeExpr_ty (g : SymTable) (e : Expr) :
    ∀ e2 t, analyzeExpr g e = .ok (e2, t) → t = tyOfA g e2 := by
  induction e with
  | num v => intro e2 t h; simp [analyzeExpr] at h; simp [← h.1, ← h.2, tyOfA]
  | flt v => intro e2 t h; simp [analyzeExpr] at h; simp [← h.1, ← h.2, tyOfA]
  | ident x =>
      intro e2 t h
      cases hg : g x with
      | none => simp [analyzeExpr, hg] at h
      | some t0 =>
          simp [analyzeExpr, hg] at h
          simp [← h.1, ← h.2, tyOfA, hg]
  | binop o l r ihl ihr =>
      intro e2 t h
      cases hl : analyzeExpr g l with
      | error m => simp [analyzeExpr, bind, Except.bind, hl] at h
      | ok pl =>
          cases hr : analyzeExpr g r with
          | error m => simp [analyzeExpr, bind, Except.bind, hl, hr] at h
          | ok pr =>
              obtain ⟨l2, tl⟩ := pl
              obtain ⟨r2, tr⟩ := pr
              have htl := ihl l2 tl hl
              have htr := ihr r2 tr hr
              simp only [analyzeExpr, bind, Except.bind, hl, hr] at h
              split at h
              · rename_i heq
                simp at h
                subst htl htr
                simp [← h.1, ← h.2, tyOfA, ← heq, lubTy_self]
              · split at h
                · rename_i hne hint
                  simp at h
                  have htr2 : tr = .float := by
                    cases tr with
                    | int => exact absurd (hint ▸ rfl) hne
                    | float => rfl
                  have hl2 : tyOfA g l2 = Ty.int := htl.symm.trans hint
                  have hr2 : tyOfA g r2 = Ty.float := htr.symm.trans htr2
                  simp [← h.1, ← h.2, tyOfA, hl2, hr2, lubTy]
                · rename_i hne hni
                  have htl2 : tl = .float := by
                    cases tl with
                    | int => exact absurd rfl hni
                    | float => rfl
                  have htr2 : tr = .int := by
                    cases tr with
                    | int => rfl
                    | float => exact absurd (htl2 ▸ rfl) hne
                  simp at h
                  have hl2 : tyOfA g l2 = Ty.float := htl.symm.trans htl2
                  have hr2 : tyOfA g r2 = Ty.int := htr.symm.trans htr2
                  simp [← h.1, ← h.2, tyOfA, hl2, hr2, lubTy]
  | i2f e ih =>
      intro e2 t h
      cases he : analyzeExpr g e with
      | error m => simp [analyzeExpr, bind, Except.bind, he] at h
      | ok pe =>
          simp only [analyzeExpr, bind, Except.bind, he] at h
          simp at h
          simp [← h.1, ← h.2, tyOfA]

/-- C2: for every `BinaryOp` node in the AST returned by semantic analysis of
a coercion-free input tree (parser output never contains `Int2Float`), if the
two operands have different numeric types then exactly one operand is wrapped
in exactly one `Int2Float` node, the wrapped operand is the int-typed one, and
the float-typed operand is never wrapped — `coercedOK` checks exactly this at
every `BinaryOp` of the result, for any symbol table in effect. -/
theorem isI2F_i2f (c : Expr) : isI2F (.i2f c) = true := rfl

theorem unwrapI2F_i2f (c : Expr) : unwrapI2F (.i2f c) = c := rfl

theorem analyzer_coercion_int_side (g : SymTable) (e : Expr)
    (hno : noI2F e = true) :
    ∀ e2 t, analyzeExpr g e = .ok (e2, t) → coercedOK g e2 = true := by
  induction e with
  | num v => intro e2 t h; simp [analyzeExpr] at h; simp [← h.1, coercedOK]
  | flt v => intro e2 t h; simp [analyzeExpr] at h; simp [← h.1, coercedOK]
  | ident x =>
      intro e2 t h
      cases hg : g x with
      | none => simp [analyzeExpr, hg] at h
      | some t0 => simp [analyzeExpr, hg] at h; simp [← h.1, coercedOK]
  | binop o l r ihl ihr =>
      intro e2 t h
      have hnol : noI2F l = true := by simp [noI2F] at hno; exact hno.1
      have hnor : noI2F r = true := by simp [noI2F] at hno; exact hno.2
      cases hl : analyzeExpr g l with
      | error m => simp [analyzeExpr, bind, Except.bind, hl] at h
      | ok pl =>
          cases hr : analyzeExpr g r with
          | error m => simp [analyzeExpr, bind, Except.bind, hl, hr] at h
          | ok pr =>
              obtain ⟨l2, tl⟩ := pl
              obtain ⟨r2, tr⟩ := pr
              have htl := analyzeExpr_ty g l l2 tl hl
              have htr := analyzeExpr_ty g r r2 tr hr
              have hil : isI2F l2 = false := analyzeExpr_not_i2f g l l2 tl hnol hl
              have hir : isI2F r2 = false := analyzeExpr_not_i2f g r r2 tr hnor hr
              have hcl : coercedOK g l2 = true := ihl hnol l2 tl hl
              have hcr : coercedOK g r2 = true := ihr hnor r2 tr hr
              simp only [analyzeExpr, bind, Except.bind, hl, hr] at h
              split at h
              · rename_i heq
                simp at h
                have : tyOfA g l2 = tyOfA g r2 := htl.symm.trans (heq.trans htr)
                simp [← h.1, coercedOK, hil, hir, hcl, hcr, this]
              · split at h
                · rename_i hne hint
                  simp at h
                  have htr2 : tr = .float := by
                    cases tr with
                    | int => exact absurd (hint ▸ rfl) hne
                    | float => rfl
                  have hl2 : tyOfA g l2 = Ty.int := htl.symm.trans hint
                  have hr2 : tyOfA g r2 = Ty.float := htr.symm.trans htr2
                  simp [← h.1, coercedOK, isI2F_i2f, unwrapI2F_i2f, hil, hir, hcl, hcr, hl2, hr2]
                · rename_i hne hni
                  have htl2 : tl = .float := by
                    cases tl with
                    | int => exact absurd rfl hni
                    | float => rfl
                  have htr2 : tr = .int := by
                    cases tr with
                    | int => rfl
                    | float => exact absurd (htl2 ▸ rfl) hne
                  simp at h
                  have hl2 : tyOfA g l2 = Ty.float := htl.symm.trans htl2
                  have hr2 : tyOfA g r2 = Ty.int := htr.symm.trans htr2
                  simp [← h.1, coercedOK, isI2F_i2f, unwrapI2F_i2f, hil, hir, hcl, hcr, hl2, hr2]
  | i2f e ih => simp [noI2F] at hno

/-- Witness for C2: analyzing `1 + 2.5` under the empty symbol table wraps the
int literal, and the result passes the coercion-discipline check. -/
theorem analyzer_coercion_int_side_witness :
    noI2F (Expr.binop .add (.num 1) (.flt (5 / 2))) = true ∧
    analyzeExpr (fun _ => none) (Expr.binop .add (.num 1) (.flt (5 / 2))) =
      .ok (Expr.binop .add (.i2f (.num 1)) (.flt (5 / 2)), .float) ∧
    coercedOK (fun _ => none)
      (Expr.binop .add (.i2f (.num 1)) (.flt (5 / 2))) = true := by
  refine ⟨by decide, by rfl, ?_⟩
  exact analyzer_coercion_int_side (fun _ => none)
    (Expr.binop .add (.num 1) (.flt (5 / 2))) (by decide)
    (Expr.binop .add (.i2f (.num 1)) (.flt (5 / 2))) .float (by rfl)

/-! ## C9: undefined-variable pre-pass and hybrid-mode seeding -/

theorem analyzeExpr_ok_of_covered (g : SymTable) (e : Expr) (defined : List String)
    (hD : ∀ x ∈ defined, (g x).isSome) (hU : ∀ x ∈ undefExpr defined e, (g x).isSome) :
    ∃ p, analyzeExpr g e = .ok p := by
  induction e with
  | num v => exact ⟨_, rfl⟩
  | flt v => exact ⟨_, rfl⟩
  | ident x =>
      have hx : (g x).isSome := by
        by_cases hmem : x ∈ defined
        · exact hD x hmem
        · exact hU x (by simp [undefExpr, hmem])
      cases hg : g x with
      | none => rw [hg] at hx; simp at hx
      | some t0 => exact ⟨(.ident x, t0), by simp [analyzeExpr, hg]⟩
  | binop o l r ihl ihr =>
      have hUl : ∀ x ∈ undefExpr defined l, (g x).isSome := by
        intro x hx; exact hU x (by simp [undefExpr]; exact Or.inl hx)
      have hUr : ∀ x ∈ undefExpr defined r, (g x).isSome := by
        intro x hx; exact hU x (by simp [undefExpr]; exact Or.inr hx)
      obtain ⟨⟨l2, tl⟩, hl⟩ := ihl hUl
      obtain ⟨⟨r2, tr⟩, hr⟩ := ihr hUr
      by_cases heq : tl = tr
      · exact ⟨(.binop o l2 r2, resultTy o tl),
          by simp [analyzeExpr, bind, Except.bind, hl, hr, heq]⟩
      · by_cases hint : tl = Ty.int
        · subst hint
          exact ⟨(.binop o (.i2f l2) r2, resultTy o Ty.float),
            by simp [analyzeExpr, bind, Except.bind, hl, hr, heq]⟩
        · exact ⟨(.binop o l2 (.i2f r2), resultTy o Ty.float),
            by simp [analyzeExpr, bind, Except.bind, hl, hr, heq, hint]⟩
  | i2f e ih =>
      have hUe : ∀ x ∈ undefExpr defined e, (g x).isSome := by
        intro x hx; exact hU x (by simpa [undefExpr] using hx)
      obtain ⟨⟨e2, t⟩, he⟩ := ih hUe
      exact ⟨(.i2f e2, Ty.float), by simp [analyzeExpr, bind, Except.bind, he]⟩

theorem updSym_isSome (g : SymTable) (x : String) (t : Ty) (y : String)
    (h : (g y).isSome) : ((updSym g x t) y).isSome := by
  by_cases hxy : y = x <;> simp [updSym, hxy, h]

theorem analyzeStmt_ok_of_covered (s : Stmt) :
    ∀ (defined : List String) (g : SymTable),
    (∀ x ∈ defined, (g x).isSome) →
    (∀ x ∈ (undefStmt defined s).2, (g x).isSome) →
    ∃ s2 g2, analyzeStmt g s = .ok (s2, g2) ∧
      (∀ x ∈ (undefStmt defined s).1, (g2 x).isSome) ∧
      (∀ x, (g x).isSome → (g2 x).isSome) := by
  induction s with
  | skip =>
      intro D g hD _
      exact ⟨.skip, g, rfl, by simpa [undefStmt] using hD, fun _ h => h⟩
  | seq a b iha ihb =>
      intro D g hD hU
      rcases hda : undefStmt D a with ⟨D1, u1⟩
      rcases hdb : undefStmt D1 b with ⟨D2, u2⟩
      simp only [undefStmt, hda, hdb] at hU ⊢
      have hU1 : ∀ x ∈ u1, (g x).isSome := fun x hx => hU x (by simp [hx])
      have hU2 : ∀ x ∈ u2, (g x).isSome := fun x hx => hU x (by simp [hx])
      obtain ⟨a2, g1, ha, hD1, hmono1⟩ := iha D g hD (by simpa [hda] using hU1)
      obtain ⟨b2, g2, hb, hD2, hmono2⟩ := ihb D1 g1 (by simpa [hda] using hD1)
        (by
          intro x hx
          exact hmono1 x (hU2 x (by simpa [hdb] using hx)))
      refine ⟨.seq a2 b2, g2, ?_, ?_, fun x h => hmono2 x (hmono1 x h)⟩
      · simp [analyzeStmt, bind, Except.bind, ha, hb]
      · simpa [hdb] using hD2
  | assign x e =>
      intro D g hD hU
      simp only [undefStmt] at hU ⊢
      obtain ⟨⟨e2, t⟩, he⟩ := analyzeExpr_ok_of_covered g e D hD hU
      cases hg : g x with
      | none =>
          refine ⟨.assign x e2, updSym g x t, ?_, ?_, ?_⟩
          · simp [analyzeStmt, bind, Except.bind, he, hg]
          · intro y hy
            rcases List.mem_cons.mp hy with h1 | h2
            · simp [updSym, h1]
            · exact updSym_isSome g x t y (hD y h2)
          · intro y hy; exact updSym_isSome g x t y hy
      | some t0 =>
          by_cases h1 : t0 = Ty.float ∧ t = Ty.int
          · refine ⟨.assign x (.i2f e2), g, ?_, ?_, fun _ h => h⟩
            · simp [analyzeStmt, bind, Except.bind, he, hg, h1]
            · intro y hy
              rcases List.mem_cons.mp hy with hyx | h2
              · simp [hyx, hg]
              · exact hD y h2
          · by_cases h2 : t0 = Ty.int ∧ t = Ty.float
            · refine ⟨.assign x e2, updSym g x Ty.float, ?_, ?_, ?_⟩
              · simp [analyzeStmt, bind, Except.bind, he, hg, h1, h2]
              · intro y hy
                rcases List.mem_cons.mp hy with hyx | hmem
                · simp [updSym, hyx]
                · exact updSym_isSome g x Ty.float y (hD y hmem)
              · intro y hy; exact updSym_isSome g x Ty.float y hy
            · refine ⟨.assign x e2, g, ?_, ?_, fun _ h => h⟩
              · simp [analyzeStmt, bind, Except.bind, he, hg, h1, h2]
              · intro y hy
                rcases List.mem_cons.mp hy with hyx | hmem
                · simp [hyx, hg]
                · exact hD y hmem
  | ifThen c s ih =>
      intro D g hD hU
      rcases hds : undefStmt D s with ⟨D1, u1⟩
      simp only [undefStmt, hds] at hU ⊢
      have hUc : ∀ x ∈ undefExpr D c, (g x).isSome := fun x hx => hU x (by simp [hx])
      have hU1 : ∀ x ∈ u1, (g x).isSome := fun x hx => hU x (by simp [hx])
      obtain ⟨⟨c2, tc⟩, hc⟩ := analyzeExpr_ok_of_covered g c D hD hUc
      obtain ⟨s2, g1, hs, hD1, hmono⟩ := ih D g hD (by simpa [hds] using hU1)
      exact ⟨.ifThen c2 s2, g1, by simp [analyzeStmt, bind, Except.bind, hc, hs],
        by simpa [hds] using hD1, hmono⟩
  | ifElse c sa sb iha ihb =>
      intro D g hD hU
      rcases hda : undefStmt D sa with ⟨D1, u1⟩
      rcases hdb : undefStmt D1 sb with ⟨D2, u2⟩
      simp only [undefStmt, hda, hdb] at hU ⊢
      have hUc : ∀ x ∈ undefExpr D c, (g x).isSome := fun x hx => hU x (by simp [hx])
      have hU1 : ∀ x ∈ u1, (g x).isSome := fun x hx => hU x (by simp [hx])
      have hU2 : ∀ x ∈ u2, (g x).isSome := fun x hx => hU x (by simp [hx])
      obtain ⟨⟨c2, tc⟩, hc⟩ := analyzeExpr_ok_of_covered g c D hD hUc
      obtain ⟨a2, g1, ha, hD1, hmono1⟩ := iha D g hD (by simpa [hda] using hU1)
      obtain ⟨b2, g2, hb, hD2, hmono2⟩ := ihb D1 g1 (by simpa [hda] using hD1)
        (by
          intro x hx
          exact hmono1 x (hU2 x (by simpa [hdb] using hx)))
      refine ⟨.ifElse c2 a2 b2, g2, ?_, by simpa [hdb] using hD2,
        fun x h => hmono2 x (hmono1 x h)⟩
      simp [analyzeStmt, bind, Except.bind, hc, ha, hb]
  | repeatUntil b c ih =>
      intro D g hD hU
      rcases hdb : undefStmt D b with ⟨D1, u1⟩
      simp only [undefStmt, hdb] at hU ⊢
      have hU1 : ∀ x ∈ u1, (g x).isSome := fun x hx => hU x (by simp [hx])
      have hUc : ∀ x ∈ undefExpr D1 c, (g x).isSome := fun x hx => hU x (by simp [hx])
      obtain ⟨b2, g1, hb, hD1, hmono⟩ := ih D g hD (by simpa [hdb] using hU1)
      obtain ⟨⟨c2, tc⟩, hc⟩ := analyzeExpr_ok_of_covered g1 c D1
        (by simpa [hdb] using hD1) (fun x hx => hmono x (hUc x hx))
      exact ⟨.repeatUntil b2 c2, g1,
        by simp [analyzeStmt, bind, Except.bind, hb, hc],
        by simpa [hdb] using hD1, hmono⟩
  | readS x =>
      intro D g hD hU
      simp only [undefStmt] at hU ⊢
      have hx : (g x).isSome := by
        by_cases hmem : x ∈ D
        · exact hD x hmem
        · exact hU x (by simp [hmem])
      cases hg : g x with
      | none => rw [hg] at hx; simp at hx
      | some t0 =>
          refine ⟨.readS x, g, by simp [analyzeStmt, hg], ?_, fun _ h => h⟩
          intro y hy
          rcases List.mem_cons.mp hy with hyx | hmem
          · simp [hyx, hg]
          · exact hD y hmem
  | writeS e =>
      intro D g hD hU
      simp only [undefStmt] at hU ⊢
      obtain ⟨⟨e2, t⟩, he⟩ := analyzeExpr_ok_of_covered g e D hD hU
      exact ⟨.writeS e2, g, by simp [analyzeStmt, bind, Except.bind, he],
        hD, fun _ h => h⟩

/-- C9: the pre-pass `undefinedVars` surfaces, before analysis, every
identifier used before any assignment or declaration to it; in hybrid mode
the declared type inferred from a supplied textual value is float exactly when
the text contains a decimal point (and int otherwise), and re-running the
(pure, hence deterministic) analysis with those inferred declarations seeded
into the symbol table succeeds. -/
theorem undefined_vars_seeding (prog : Stmt) (inputs : List VarInput)
    (h : ∀ x ∈ undefinedVars prog, x ∈ inputs.map VarInput.name) :
    (∀ v : String, inferType v = Ty.float ↔ v.contains '.' = true) ∧
    ∃ s2 g2, analyzeStmt (seedSym inputs) prog = .ok (s2, g2) := by
  constructor
  · intro v
    by_cases hc : v.contains '.' = true <;> simp [inferType, hc]
  · have hcov : ∀ x ∈ (undefStmt [] prog).2, ((seedSym inputs) x).isSome := by
      intro x hx
      have hx2 : x ∈ inputs.map VarInput.name := h x hx
      obtain ⟨i, hi, hname⟩ := List.mem_map.mp hx2
      have : (inputs.find? fun j => j.name == x).isSome := by
        rw [List.find?_isSome]
        exact ⟨i, hi, by simp [hname]⟩
      simpa [seedSym] using this
    obtain ⟨s2, g2, hok, _, _⟩ :=
      analyzeStmt_ok_of_covered prog [] (seedSym inputs) (by simp) hcov
    exact ⟨s2, g2, hok⟩

/-- Witness for C9: the program `x := y + 1; write x;` has exactly `y`
undefined; supplying `y = "2.5"` through the hybrid form (inferring float from
the decimal point) lets analysis succeed. -/
theorem undefined_vars_seeding_witness :
    undefinedVars (Stmt.seq (.assign "x" (.binop .add (.ident "y") (.num 1)))
        (.writeS (.ident "x"))) = ["y"] ∧
    (∀ x ∈ undefinedVars (Stmt.seq (.assign "x" (.binop .add (.ident "y") (.num 1)))
        (.writeS (.ident "x"))),
      x ∈ ([⟨"y", "2.5"⟩] : List VarInput).map VarInput.name) ∧
    ∃ s2 g2, analyzeStmt (seedSym [⟨"y", "2.5"⟩])
        (Stmt.seq (.assign "x" (.binop .add (.ident "y") (.num 1)))
          (.writeS (.ident "x"))) = .ok (s2, g2) := by
  refine ⟨by decide, by decide, ?_⟩
  exact (undefined_vars_seeding
    (Stmt.seq (.assign "x" (.binop .add (.ident "y") (.num 1)))
      (.writeS (.ident "x"))) [⟨"y", "2.5"⟩] (by decide)).2

/-! ## C5: repeat-until semantics and lowering -/

theorem annRepeat_stops (b : Stmt) (c : Expr) :
    ∀ (f : Nat) (st : ExecSt) (n : Nat) (st2 : ExecSt),
      annRepeat f b c st = some (n, st2) → evalE st2.vars c ≠ 0 ∧ 1 ≤ n := by
  intro f
  induction f with
  | zero => intro st n st2 h; simp [annRepeat] at h
  | succ f ih =>
      intro st n st2 h
      cases hb : execS f b st with
      | none => rw [annRepeat, hb] at h; simp at h
      | some st1 =>
          rw [annRepeat, hb] at h
          simp only [Option.bind] at h
          by_cases hc : evalE st1.vars c = 0
          · rw [if_pos hc] at h
            cases ha : annRepeat f b c st1 with
            | none => rw [ha] at h; simp at h
            | some pr =>
                rw [ha] at h
                simp at h
                obtain ⟨m, st3⟩ := pr
                obtain ⟨hm, hst⟩ := h
                obtain ⟨hstop, hone⟩ := ih st1 m st3 ha
                subst hst
                refine ⟨hstop, by omega⟩
          · rw [if_neg hc] at h
            simp at h
            obtain ⟨hn, hst⟩ := h
            subst hst
            exact ⟨hc, by omega⟩

/-- C5 (amended): direct execution of `repeat z := z + 1; until z != 10;`
with `z` initially 0 runs the body while the condition `z != 10` evaluates
false and stops when it becomes true; since `z != 10` is already true after
the first iteration, the annotated `RepeatUntil` node reports 1 iteration and
a final value `z = 1` (not `z = 10`); and ICG lowers repeat-until to a body
label, the body code, the condition evaluation, and
`if_false <cond> goto L_body`. -/
theorem repeat_until_exec_and_icg :
    (∀ (b : Stmt) (c : Expr) (f : Nat) (st : ExecSt) (n : Nat) (st2 : ExecSt),
       annRepeat f b c st = some (n, st2) → evalE st2.vars c ≠ 0 ∧ 1 ≤ n) ∧
    (annRepeat 20 (Stmt.assign "z" (.binop .add (.ident "z") (.num 1)))
        (.binop .ne (.ident "z") (.num 10)) ⟨fun _ => 0, [], []⟩).map
        (fun p => (p.1, p.2.vars "z")) = some (1, 1) ∧
    (execS 20 (Stmt.repeatUntil (.assign "z" (.binop .add (.ident "z") (.num 1)))
        (.binop .ne (.ident "z") (.num 10))) ⟨fun _ => 0, [], []⟩).map
        (fun p => p.vars "z") = some 1 ∧
    icgStmt (Stmt.repeatUntil (.assign "z" (.binop .add (.ident "z") (.num 1)))
        (.binop .ne (.ident "z") (.num 10))) ⟨0, 0⟩ =
      ([Instr.label "L1",
        Instr.binop "temp1" .add (.var "z") (.lit .int 1 "1"),
        Instr.assign "z" (.var "temp1"),
        Instr.binop "temp2" .ne (.var "z") (.lit .int 10 "10"),
        Instr.if_false (.var "temp2") "L1"], ⟨2, 1⟩) := by
  refine ⟨fun b c => annRepeat_stops b c, ?_, ?_, by rfl⟩
  · norm_num [annRepeat, execS, evalE, evalOp, upd]
  · norm_num [annRepeat, execS, evalE, evalOp, upd]

/-- Counterexample for C5 as stated: the scenario's final value is `z = 1`
after 1 iteration, not `z = 10` — the condition `z != 10` becomes true
immediately. -/
theorem repeat_until_final_value_cex :
    (annRepeat 20 (Stmt.assign "z" (.binop .add (.ident "z") (.num 1)))
        (.binop .ne (.ident "z") (.num 10)) ⟨fun _ => 0, [], []⟩).map
        (fun p => p.2.vars "z") = some 1 ∧ (1 : ℚ) ≠ 10 := by
  refine ⟨?_, by norm_num⟩
  norm_num [annRepeat, execS, evalE, evalOp, upd]

/-! ## C6/C7: code generator -/

theorem isArith_false_of_cmp (o : BinOp) (h : isCmpOrLogic o = true) :
    isArith o = false := by
  cases o <;> simp_all [isCmpOrLogic, isArith]

theorem codegenInstr_unsupported (tm : String → Ty) (i : Instr)
    (hu : unsupportedInstr i = true) : ∃ e, codegenInstr tm i = .error e := by
  cases i with
  | assign d s => simp [unsupportedInstr] at hu
  | binop d o a b =>
      simp only [unsupportedInstr] at hu
      exact ⟨"codegen: comparison and logical operators are not supported",
        by simp [codegenInstr, isArith_false_of_cmp o hu]⟩
  | int2float d a => simp [unsupportedInstr] at hu
  | label l => exact ⟨_, rfl⟩
  | goto l => exact ⟨_, rfl⟩
  | if_false c l => exact ⟨_, rfl⟩
  | read d => exact ⟨_, rfl⟩
  | write a => exact ⟨_, rfl⟩

/-- C6: for every TAC sequence containing a control-flow instruction (label,
goto, if_false), an I/O instruction (read, write), or a comparison operator,
code generation returns a capability error rather than an assembly listing —
such instructions are never silently dropped. -/
theorem codegen_rejects_unsupported (tm : String → Ty) (p : List Instr) (i : Instr)
    (hmem : i ∈ p) (hu : unsupportedInstr i = true) :
    ∃ e, codegen tm p = .error e := by
  induction p with
  | nil => simp at hmem
  | cons j rest ih =>
      rcases List.mem_cons.mp hmem with hij | hmem2
      · obtain ⟨e, he⟩ := codegenInstr_unsupported tm i hu
        exact ⟨e, by simp [codegen, bind, Except.bind, ← hij, he]⟩
      · cases hj : codegenInstr tm j with
        | error e => exact ⟨e, by simp [codegen, bind, Except.bind, hj]⟩
        | ok a =>
            obtain ⟨e, he⟩ := ih hmem2
            exact ⟨e, by simp [codegen, bind, Except.bind, hj, he]⟩

/-- Witness for C6: a TAC sequence containing `read id1` is rejected. -/
theorem codegen_rejects_unsupported_witness :
    (Instr.read "id1") ∈ [Instr.assign "id1" (.lit .int 5 "5"), Instr.read "id1"] ∧
    unsupportedInstr (Instr.read "id1") = true ∧
    ∃ e, codegen (fun _ => Ty.int)
      [Instr.assign "id1" (.lit .int 5 "5"), Instr.read "id1"] = .error e := by
  refine ⟨by decide, by decide, ?_⟩
  exact codegen_rejects_unsupported (fun _ => Ty.int)
    [Instr.assign "id1" (.lit .int 5 "5"), Instr.read "id1"]
    (Instr.read "id1") (by decide) (by decide)

/-- C7: for an arithmetic TAC instruction with operator `+` or `*` whose first
operand is a literal and whose second is not, the code generator emits the
instruction with the operands swapped, so the non-literal operand is loaded
into a register first and the literal is used as an immediate; and codegen for
the optimized TAC of `x := y + 3.5;` with `y` typed float emits exactly
`LOADF R1, id2`, `ADDF R1, R1, #3.5`, `STRF id1, R1`. -/
theorem codegen_commutative_swap (tm : String → Ty) (d : String) (o : BinOp)
    (a b : Operand) (ho : o = .add ∨ o = .mul)
    (ha : isLit a = true) (hb : isLit b = false) :
    codegenInstr tm (.binop d o a b) = codegenInstr tm (.binop d o b a) ∧
    (∃ fl : Bool,
      codegenInstr tm (.binop d o a b) = .ok
        [⟨"LOAD" ++ fSuffix fl, ["R1", renderOperand b]⟩,
         ⟨arithMnemonic o ++ fSuffix fl, ["R1", "R1", renderOperand a]⟩,
         ⟨"STR" ++ fSuffix fl, [d, "R1"]⟩]) ∧
    codegenInstr (fun _ => Ty.float)
        (.binop "id1" .add (.var "id2") (.lit .float (7 / 2) "3.5")) = .ok
      [⟨"LOADF", ["R1", "id2"]⟩, ⟨"ADDF", ["R1", "R1", "#3.5"]⟩,
       ⟨"STRF", ["id1", "R1"]⟩] ∧
    (codegenInstr (fun _ => Ty.float)
        (.binop "id1" .add (.var "id2") (.lit .float (7 / 2) "3.5"))).map
        (fun l => l.map renderAsm) =
      .ok ["LOADF R1, id2", "ADDF R1, R1, #3.5", "STRF id1, R1"] := by
  have harith : isArith o = true := by rcases ho with h | h <;> simp [h, isArith]
  obtain ⟨ta, va, txta, haa⟩ : ∃ ta va txta, a = .lit ta va txta := by
    cases a with
    | lit ta va txta => exact ⟨ta, va, txta, rfl⟩
    | var n => simp [isLit] at ha
  obtain ⟨nb, hbb⟩ : ∃ nb, b = .var nb := by
    cases b with
    | lit tb vb txtb => simp [isLit] at hb
    | var n => exact ⟨n, rfl⟩
  subst haa hbb
  refine ⟨?_, ?_, by rfl, by rfl⟩
  · simp [codegenInstr, harith, ho, isLit, Bool.or_comm, Bool.or_assoc, Bool.or_left_comm]
  · exact ⟨opIsFloat tm (.lit ta va txta) || opIsFloat tm (.var nb) || (tm d == .float),
      by simp [codegenInstr, harith, ho, isLit, renderOperand]⟩

/-- Witness for C7: the swap fires for `temp1 := #2 * id1` with the literal
first. -/
theorem codegen_commutative_swap_witness :
    ((BinOp.mul = BinOp.add ∨ BinOp.mul = BinOp.mul) ∧
      isLit (.lit .int 2 "2") = true ∧ isLit (.var "id1") = false) ∧
    codegenInstr (fun _ => Ty.int) (.binop "temp1" .mul (.lit .int 2 "2") (.var "id1")) =
      codegenInstr (fun _ => Ty.int) (.binop "temp1" .mul (.var "id1") (.lit .int 2 "2")) := by
  refine ⟨⟨Or.inr rfl, by decide, by decide⟩, ?_⟩
  exact (codegen_commutative_swap (fun _ => Ty.int) "temp1" .mul
    (.lit .int 2 "2") (.var "id1") (Or.inr rfl) (by decide) (by decide)).1

/-! ## C3: lexer totality, EOF termination, round-trip, ILLEGAL resilience -/

theorem length_dropWhile_le (p : Char → Bool) (l : List Char) :
    (l.dropWhile p).length ≤ l.length := by
  induction l with
  | nil => simp
  | cons c cs ih =>
      by_cases h : p c
      · simp [List.dropWhile, h]; omega
      · simp [List.dropWhile, h]

theorem breakAt_append (ch : Char) (l : List Char) :
    ∀ t r, breakAt ch l = some (t, r) → l = t ++ ch :: r := by
  induction l with
  | nil => intro t r h; simp [breakAt] at h
  | cons c cs ih =>
      intro t r h
      by_cases hc : c = ch
      · simp [breakAt, hc] at h
        simp [← h.1, ← h.2, hc]
      · cases hb : breakAt ch cs with
        | none => simp [breakAt, hc, hb] at h
        | some pr =>
            obtain ⟨pt, pr2⟩ := pr
            simp only [breakAt, hc, if_false] at h
            rw [hb] at h
            simp at h
            have hcs := ih pt pr2 hb
            rw [← h.1, ← h.2, hcs]
            simp

theorem twoCharOp_sound (c : Char) (h : Option Char) (s : String)
    (heq : twoCharOp c h = some s) : ∃ d, h = some d ∧ s.data = [c, d] := by
  unfold twoCharOp at heq
  split_ifs at heq with h1 h2 h3 h4 h5 h6 h7 <;> simp at heq
  · exact ⟨'=', h1.2, by rw [← heq, h1.1]⟩
  · exact ⟨'=', h2.2, by rw [← heq, h2.1]⟩
  · exact ⟨'=', h3.2, by rw [← heq, h3.1]⟩
  · exact ⟨'=', h4.2, by rw [← heq, h4.1]⟩
  · exact ⟨'=', h5.2, by rw [← heq, h5.1]⟩
  · exact ⟨'&', h6.2, by rw [← heq, h6.1]⟩
  · exact ⟨'|', h7.2, by rw [← heq, h7.1]⟩

theorem twoCharOp_none (c : Char) (h : Option Char)
    (h1 : c ≠ ':') (h2 : c ≠ '<') (h3 : c ≠ '>') (h4 : c ≠ '=') (h5 : c ≠ '!')
    (h6 : c ≠ '&') (h7 : c ≠ '|') : twoCharOp c h = none := by
  unfold twoCharOp
  split_ifs with g1 g2 g3 g4 g5 g6 g7 <;>
    first
      | rfl
      | exact absurd g1.1 h1
      | exact absurd g2.1 h2
      | exact absurd g3.1 h3
      | exact absurd g4.1 h4
      | exact absurd g5.1 h5
      | exact absurd g6.1 h6
      | exact absurd g7.1 h7


theorem lexStep_length (c : Char) (cs : List Char) (it : Item) (r : List Char)
    (h : lexStep c cs = .ok (it, r)) : r.length ≤ cs.length := by
  unfold lexStep at h
  split_ifs at h with hws hcm hbl hdg hal
  · simp at h
    rw [← h.2]
  · simp at h
    rw [← h.2]
    have l1 := length_dropWhile_le (fun d => !(d == '\n')) cs.tail
    have l2 : cs.tail.length ≤ cs.length := by cases cs <;> simp
    omega
  · cases hbr : breakAt '\x7d' cs with
    | none => rw [hbr] at h; simp at h
    | some pr =>
        obtain ⟨t, rr⟩ := pr
        rw [hbr] at h
        simp at h
        rw [← h.2]
        have hcs := breakAt_append '\x7d' cs t rr hbr
        have : cs.length = t.length + 1 + rr.length := by rw [hcs]; simp; omega
        omega
  · have hd1 := length_dropWhile_le Char.isDigit cs
    cases hr1 : cs.dropWhile Char.isDigit with
    | nil =>
        rw [hr1] at h
        simp at h
        simp [h.2]
    | cons d1 rest =>
        rw [hr1] at hd1
        cases rest with
        | nil =>
            rw [hr1] at h
            simp at h
            rw [← h.2]
            simpa using hd1
        | cons d2 r2 =>
            by_cases hdot : d1 = '.'
            · subst hdot
              rw [hr1] at h
              simp only [] at h
              split_ifs at h with hd2
              · simp at h
                rw [← h.2]
                have l1 := length_dropWhile_le Char.isDigit (d2 :: r2)
                simp at l1 hd1
                omega
              · simp at h
                rw [← h.2]
                exact hd1
            · rw [hr1] at h
              simp [hdot] at h
              rw [← h.2]
              exact hd1
  · simp at h
    rw [← h.2]
    exact length_dropWhile_le isIdChar cs
  · simp at h
    rw [← h.2]
    exact length_dropWhile_le isIdChar cs
  all_goals try split at h
  all_goals simp at h
  all_goals rw [← h.2]
  all_goals
    first
      | exact le_refl _
      | (cases cs <;> simp)

theorem lexStep_chars (c : Char) (cs : List Char) (it : Item) (r : List Char)
    (h : lexStep c cs = .ok (it, r)) : itemChars it ++ r = c :: cs := by
  unfold lexStep at h
  split_ifs at h with hws hcm hbl hdg hal
  · simp at h
    rw [← h.1, ← h.2]
    simp [itemChars]
  · simp at h
    simp only [Bool.and_eq_true, beq_iff_eq] at hcm
    obtain ⟨hc, hh⟩ := hcm
    cases cs with
    | nil => simp at hh
    | cons c2 t =>
        simp at hh
        rw [← h.1, ← h.2]
        simp [itemChars, hc, hh]
  · cases hbr : breakAt '\x7d' cs with
    | none => rw [hbr] at h; simp at h
    | some pr =>
        obtain ⟨t, rr⟩ := pr
        rw [hbr] at h
        simp at h
        have hcs := breakAt_append '\x7d' cs t rr hbr
        have hc : c = '\x7b' := by simpa using hbl
        rw [← h.1, ← h.2]
        simp [itemChars, hc, hcs]
  · cases hr1 : cs.dropWhile Char.isDigit with
    | nil =>
        rw [hr1] at h
        simp at h
        rw [← h.1, h.2]
        simp [itemChars]
        have := List.takeWhile_append_dropWhile Char.isDigit cs
        rw [hr1] at this
        simpa using this
    | cons d1 rest =>
        have hsplit := List.takeWhile_append_dropWhile Char.isDigit cs
        rw [hr1] at hsplit
        cases rest with
        | nil =>
            rw [hr1] at h
            simp at h
            rw [← h.1, ← h.2]
            simp [itemChars]
            exact hsplit
        | cons d2 r2 =>
            by_cases hdot : d1 = '.'
            · subst hdot
              rw [hr1] at h
              simp only [] at h
              split_ifs at h with hd2
              · simp at h
                rw [← h.1, ← h.2]
                simp [itemChars, List.takeWhile_append_dropWhile]
                exact hsplit
              · simp at h
                rw [← h.1, ← h.2]
                simp [itemChars]
                exact hsplit
            · rw [hr1] at h
              simp [hdot] at h
              rw [← h.1, ← h.2]
              simp [itemChars]
              exact hsplit
  · simp at h
    rw [← h.1, ← h.2]
    simp [itemChars]
  · simp at h
    rw [← h.1, ← h.2]
    simp [itemChars]
  all_goals
    cases hop : twoCharOp c cs.head? with
    | some opTxt =>
        rw [hop] at h
        simp at h
        obtain ⟨d, hd, hdata⟩ := twoCharOp_sound c cs.head? opTxt hop
        cases cs with
        | nil => simp at hd
        | cons c2 t =>
            simp at hd
            rw [← h.1, ← h.2]
            simp [itemChars, hdata, hd]
    | none =>
        rw [hop] at h
        simp at h
        rw [← h.1, ← h.2]
        simp [itemChars]

theorem lexStep_illegal (c : Char) (cs : List Char) (h : unrecognizedChar c = true) :
    lexStep c cs = .ok (.tok ⟨.illegal, ⟨[c]⟩⟩, cs) := by
  simp only [unrecognizedChar, Bool.and_eq_true, Bool.not_eq_true'] at h
  obtain ⟨⟨⟨⟨⟨⟨⟨⟨⟨hws, hdg⟩, hal⟩, hmem⟩, hcol⟩, heqs⟩, hbang⟩, hamp⟩, hbar⟩, hbrace⟩ := h
  have hmem2 : c ∉ singleOps := by
    intro hc
    simp [hc] at hmem
  have hpct : c ≠ '%' := by
    intro e; subst e; simp [singleOps] at hmem2
  have hlt : c ≠ '<' := by
    intro e; subst e; simp [singleOps] at hmem2
  have hgt : c ≠ '>' := by
    intro e; subst e; simp [singleOps] at hmem2
  have hcol2 : c ≠ ':' := by simpa using hcol
  have heqs2 : c ≠ '=' := by simpa using heqs
  have hbang2 : c ≠ '!' := by simpa using hbang
  have hamp2 : c ≠ '&' := by simpa using hamp
  have hbar2 : c ≠ '|' := by simpa using hbar
  have hbrace2 : c ≠ '\x7b' := by simpa using hbrace
  have hop := twoCharOp_none c cs.head? hcol2 hlt hgt heqs2 hbang2 hamp2 hbar2
  unfold lexStep
  rw [hop]
  simp [hws, hdg, hal, hmem2, hpct, hbrace2]

theorem lexRun_total (f : Nat) :
    ∀ s : List Char, s.length < f → (lexRun f s).isSome = true := by
  induction f with
  | zero => intro s h; omega
  | succ f ih =>
      intro s hlen
      cases s with
      | nil => simp [lexRun]
      | cons c cs =>
          rw [lexRun]
          cases hs : lexStep c cs with
          | error e => simp
          | ok pr =>
              obtain ⟨it, r⟩ := pr
              have hr : r.length ≤ cs.length := lexStep_length c cs it r hs
              have hlen2 : r.length < f := by simp at hlen; omega
              have := ih r hlen2
              cases hlr : lexRun f r with
              | none => rw [hlr] at this; simp at this
              | some res => simp [hlr]

theorem lexRun_chars (f : Nat) :
    ∀ (s : List Char) (items : List Item),
      lexRun f s = some (.ok items) → itemsChars items = s := by
  induction f with
  | zero => intro s items h; simp [lexRun] at h
  | succ f ih =>
      intro s items h
      cases s with
      | nil =>
          simp [lexRun] at h
          rw [← h]
          simp [itemsChars, itemChars]
      | cons c cs =>
          rw [lexRun] at h
          cases hs : lexStep c cs with
          | error e => rw [hs] at h; simp at h
          | ok pr =>
              obtain ⟨it, r⟩ := pr
              rw [hs] at h
              dsimp only at h
              cases hlr : lexRun f r with
              | none => rw [hlr] at h; simp at h
              | some res =>
                  rw [hlr] at h
                  cases res with
                  | error e => simp [Except.map] at h
                  | ok its2 =>
                      simp [Except.map] at h
                      rw [← h]
                      simp only [itemsChars, List.map_cons, List.flatten_cons]
                      have hih : itemsChars its2 = r := ih r its2 (by rw [hlr])
                      simp only [itemsChars] at hih
                      rw [hih]
                      exact lexStep_chars c cs it r hs

theorem lexRun_eof (f : Nat) :
    ∀ (s : List Char) (items : List Item),
      lexRun f s = some (.ok items) →
      ∃ pre, items = pre ++ [.tok ⟨.eof, ""⟩] := by
  induction f with
  | zero => intro s items h; simp [lexRun] at h
  | succ f ih =>
      intro s items h
      cases s with
      | nil =>
          simp [lexRun] at h
          exact ⟨[], by rw [← h]; simp⟩
      | cons c cs =>
          rw [lexRun] at h
          cases hs : lexStep c cs with
          | error e => rw [hs] at h; simp at h
          | ok pr =>
              obtain ⟨it, r⟩ := pr
              rw [hs] at h
              dsimp only at h
              cases hlr : lexRun f r with
              | none => rw [hlr] at h; simp at h
              | some res =>
                  rw [hlr] at h
                  cases res with
                  | error e => simp [Except.map] at h
                  | ok its2 =>
                      simp [Except.map] at h
                      obtain ⟨pre, hpre⟩ := ih r its2 (by rw [hlr])
                      exact ⟨it :: pre, by rw [← h, hpre]; simp⟩

/-- C3 (amended): for every input string the lexer terminates — fuel one above
the input length always suffices; whenever no unterminated block comment makes
it fail (the one fatal lexical error, spec §4.1/§7), it returns an item list
whose tokens end in EOF and whose concatenated literals together with the
skipped whitespace and comments reconstruct the original source exactly; and a
character matched by no lexical rule yields an ILLEGAL token inline while the
scan of the rest continues unchanged. -/
theorem lexer_terminates_eof_roundtrip :
    (∀ s : String, (tokenize s).isSome = true) ∧
    (∀ (s : List Char) (items : List Item),
      lexRun (s.length + 1) s = some (.ok items) →
      itemsChars items = s ∧ ∃ pre, items = pre ++ [.tok ⟨.eof, ""⟩]) ∧
    (∀ (c : Char) (cs : List Char) (f : Nat), unrecognizedChar c = true →
      lexRun (f + 1) (c :: cs) =
        (lexRun f cs).map (Except.map (Item.tok ⟨.illegal, ⟨[c]⟩⟩ :: ·))) := by
  refine ⟨?_, ?_, ?_⟩
  · intro s
    exact lexRun_total (s.length + 1) s.data (Nat.lt_succ_self s.data.length)
  · intro s items h
    exact ⟨lexRun_chars (s.length + 1) s items h,
      lexRun_eof (s.length + 1) s items h⟩
  · intro c cs f h
    rw [lexRun, lexStep_illegal c cs h]

/-- Witness for C3 at the concrete source `x:=@1` (containing the character
`@`, matched by no rule) and at a concrete unrecognized character. -/
theorem lexer_terminates_eof_roundtrip_witness :
    (lexRun (['x', ':', '=', '@', '1'].length + 1) ['x', ':', '=', '@', '1'] =
      some (.ok
        [.tok ⟨.identifier, "x"⟩, .tok ⟨.op, ":="⟩, .tok ⟨.illegal, "@"⟩,
         .tok ⟨.number, "1"⟩, .tok ⟨.eof, ""⟩])) ∧
    itemsChars
        [.tok ⟨.identifier, "x"⟩, .tok ⟨.op, ":="⟩, .tok ⟨.illegal, "@"⟩,
         .tok ⟨.number, "1"⟩, .tok ⟨.eof, ""⟩] = ['x', ':', '=', '@', '1'] ∧
    (∃ pre, [Item.tok ⟨.identifier, "x"⟩, .tok ⟨.op, ":="⟩, .tok ⟨.illegal, "@"⟩,
         .tok ⟨.number, "1"⟩, .tok ⟨.eof, ""⟩] = pre ++ [.tok ⟨.eof, ""⟩]) ∧
    unrecognizedChar '@' = true ∧
    lexRun 2 ['@', ';'] =
      (lexRun 1 [';']).map (Except.map (Item.tok ⟨.illegal, "@"⟩ :: ·)) := by
  have h := (lexer_terminates_eof_roundtrip.2.1 ['x', ':', '=', '@', '1']
    [.tok ⟨.identifier, "x"⟩, .tok ⟨.op, ":="⟩, .tok ⟨.illegal, "@"⟩,
     .tok ⟨.number, "1"⟩, .tok ⟨.eof, ""⟩] (by rfl))
  exact ⟨by rfl, h.1, h.2,
    by decide, lexer_terminates_eof_roundtrip.2.2 '@' [';'] 1 (by decide)⟩

/-- Counterexample for C3 as stated: on the input `\x7b` (an unterminated
block comment) the lexer reports a fatal lexical error and returns no token
sequence at all, so not every input string yields an EOF-terminated token
sequence. -/
theorem lexer_unterminated_comment_cex :
    tokenize "\x7b" = some (.error .unterminatedComment) ∧
    ¬∃ items : List Item, tokenize "\x7b" = some (.ok items) := by
  have h1 : tokenize "\x7b" = some (.error .unterminatedComment) := by rfl
  refine ⟨h1, ?_⟩
  rintro ⟨items, h2⟩
  rw [h1] at h2
  simp at h2

/-! ## C1/C4: the optimizer -/

theorem StExt (a b : St) (he : a.env = b.env) (hi : a.input = b.input)
    (ho : a.output = b.output) : a = b := by
  cases a; cases b; simp_all

theorem RelSt_refl (s : St) : RelSt s s :=
  ⟨rfl, rfl, fun _ _ => rfl⟩

theorem RelSt_trans (a b c : St) (h1 : RelSt a b) (h2 : RelSt b c) : RelSt a c :=
  ⟨h1.1.trans h2.1, h1.2.1.trans h2.2.1,
   fun x hx => (h1.2.2 x hx).trans (h2.2.2 x hx)⟩

theorem RelSt_of_eq (a b : St) (h : a = b) : RelSt a b := h ▸ RelSt_refl a

theorem execList_nil (st : St) : execList [] st = st := rfl

theorem execList_cons (i : Instr) (q : List Instr) (st : St) :
    execList (i :: q) st = execList q (stepInstr i st) := rfl

theorem isLitVal_eval (q : ℚ) (o : Operand) (h : isLitVal q o = true)
    (env : String → ℚ) : evalOperand env o = q := by
  cases o with
  | lit ty v txt => simpa [isLitVal, evalOperand] using h
  | var x => simp [isLitVal] at h

theorem stepInstr_foldI2F (i : Instr) (st : St) :
    stepInstr (foldI2F i) st = stepInstr i st := by
  cases i with
  | int2float d a =>
      cases a with
      | lit ty v txt => simp [foldI2F, stepInstr, evalOperand]
      | var x => rfl
  | assign d s => rfl
  | binop d o a b => rfl
  | label l => rfl
  | goto l => rfl
  | if_false c l => rfl
  | read d => rfl
  | write a => rfl

theorem stepInstr_algSimp (i : Instr) (st : St) :
    stepInstr (algSimp i) st = stepInstr i st := by
  cases i with
  | binop d o a b =>
      simp only [algSimp]
      split_ifs with h1 h2 h3 h4
      · obtain ⟨ho, hb⟩ := h1
        have hbv := isLitVal_eval 1 b hb st.env
        rcases ho with ho | ho <;>
          subst ho <;> simp [stepInstr, evalOp, hbv]
      · obtain ⟨ho, ha⟩ := h2
        have hav := isLitVal_eval 1 a ha st.env
        subst ho
        simp [stepInstr, evalOp, hav]
      · obtain ⟨ho, hb⟩ := h3
        have hbv := isLitVal_eval 0 b hb st.env
        rcases ho with ho | ho <;>
          subst ho <;> simp [stepInstr, evalOp, hbv]
      · obtain ⟨ho, ha⟩ := h4
        have hav := isLitVal_eval 0 a ha st.env
        subst ho
        simp [stepInstr, evalOp, hav]
      · rfl
  | assign d s => rfl
  | int2float d a => rfl
  | label l => rfl
  | goto l => rfl
  | if_false c l => rfl
  | read d => rfl
  | write a => rfl

theorem execList_map_semEq (φ : Instr → Instr)
    (hφ : ∀ (i : Instr) (st : St), stepInstr (φ i) st = stepInstr i st) :
    ∀ (p : List Instr) (st : St), execList (p.map φ) st = execList p st := by
  intro p
  induction p with
  | nil => intro st; rfl
  | cons i rest ih =>
      intro st
      rw [List.map_cons, execList_cons, execList_cons, hφ i st, ih]

theorem AgreeExcept_refl (t : String) (s : St) : AgreeExcept t s s :=
  ⟨rfl, rfl, fun _ _ => rfl⟩

theorem AgreeExcept_of_eq (t : String) (a b : St) (h : a = b) : AgreeExcept t a b :=
  h ▸ AgreeExcept_refl t a

theorem AgreeExcept_symm (t : String) (a b : St) (h : AgreeExcept t a b) :
    AgreeExcept t b a :=
  ⟨h.1.symm, h.2.1.symm, fun x hx => (h.2.2 x hx).symm⟩

theorem RelSt_of_agree (t : String) (ht : isTemp t = true) (a b : St)
    (h : AgreeExcept t a b) : RelSt a b := by
  refine ⟨h.1, h.2.1, fun x hx => ?_⟩
  have hxt : x ≠ t := by
    intro e
    rw [e, ht] at hx
    exact Bool.true_eq_false.mp hx
  exact h.2.2 x hxt

theorem AgreeExcept_updSt (t : String) (v : ℚ) (st : St) :
    AgreeExcept t st (updSt t v st) := by
  refine ⟨rfl, rfl, fun x hx => ?_⟩
  simp [updSt, upd, hx]

theorem evalOperand_agree (t : String) (o : Operand) (e1 e2 : String → ℚ)
    (ho : opUses t o = false) (h : ∀ x, x ≠ t → e1 x = e2 x) :
    evalOperand e1 o = evalOperand e2 o := by
  cases o with
  | lit ty v txt => rfl
  | var y =>
      have hy : y ≠ t := by simpa [opUses] using ho
      exact h y hy

theorem evalOperand_upd (t : String) (v : ℚ) (o : Operand) (env : String → ℚ)
    (ho : opUses t o = false) : evalOperand (upd env t v) o = evalOperand env o :=
  evalOperand_agree t o (upd env t v) env ho (fun x hx => upd_other env t v x hx)

theorem usesCount_zero_readsVar (t : String) (i : Instr)
    (h : usesCount t i = 0) : readsVar t i = false := by
  cases i <;> simp [usesCount, readsVar] at h ⊢ <;>
    first
      | (constructor <;> simp [h])
      | simp [h]

theorem readsVar_binop_split (t : String) (d : String) (o : BinOp) (a b : Operand)
    (h : readsVar t (.binop d o a b) = false) :
    opUses t a = false ∧ opUses t b = false := by
  simpa [readsVar] using h

theorem stepInstr_agree_def (t : String) (i : Instr) (s1 s2 : St)
    (hr : readsVar t i = false) (h : AgreeExcept t s1 s2)
    (hd : defsVar i = some t) : stepInstr i s1 = stepInstr i s2 := by
  obtain ⟨hin, hout, henv⟩ := h
  cases i with
  | assign d s =>
      have hdt : d = t := by simpa [defsVar] using hd
      have hs : opUses t s = false := by simpa [readsVar] using hr
      have hw : evalOperand s1.env s = evalOperand s2.env s :=
        evalOperand_agree t s s1.env s2.env hs henv
      refine StExt _ _ ?_ (by simp [stepInstr, hin]) (by simp [stepInstr, hout])
      funext x
      by_cases hx : x = d
      · simp [stepInstr, upd, hx, hw]
      · simp [stepInstr, upd, hx]
        exact henv x (by rw [← hdt] at *; exact fun e => hx e)
  | binop d o a b =>
      have hdt : d = t := by simpa [defsVar] using hd
      obtain ⟨ha, hb⟩ := readsVar_binop_split t d o a b hr
      have hw : evalOp o (evalOperand s1.env a) (evalOperand s1.env b) =
          evalOp o (evalOperand s2.env a) (evalOperand s2.env b) := by
        rw [evalOperand_agree t a s1.env s2.env ha henv,
          evalOperand_agree t b s1.env s2.env hb henv]
      refine StExt _ _ ?_ (by simp [stepInstr, hin]) (by simp [stepInstr, hout])
      funext x
      by_cases hx : x = d
      · simp [stepInstr, upd, hx, hw]
      · simp [stepInstr, upd, hx]
        exact henv x (by rw [← hdt] at *; exact fun e => hx e)
  | int2float d a =>
      have hdt : d = t := by simpa [defsVar] using hd
      have ha : opUses t a = false := by simpa [readsVar] using hr
      have hw : evalOperand s1.env a = evalOperand s2.env a :=
        evalOperand_agree t a s1.env s2.env ha henv
      refine StExt _ _ ?_ (by simp [stepInstr, hin]) (by simp [stepInstr, hout])
      funext x
      by_cases hx : x = d
      · simp [stepInstr, upd, hx, hw]
      · simp [stepInstr, upd, hx]
        exact henv x (by rw [← hdt] at *; exact fun e => hx e)
  | read d =>
      have hdt : d = t := by simpa [defsVar] using hd
      cases hi1 : s1.input with
      | nil =>
          have hi2 : s2.input = [] := by rw [← hin, hi1]
          refine StExt _ _ ?_ (by simp [stepInstr, hi1, hi2]) (by simp [stepInstr, hi1, hi2, hout])
          funext x
          by_cases hx : x = d
          · simp [stepInstr, hi1, hi2, upd, hx]
          · simp [stepInstr, hi1, hi2, upd, hx]
            exact henv x (by rw [← hdt] at *; exact fun e => hx e)
      | cons v rest =>
          have hi2 : s2.input = v :: rest := by rw [← hin, hi1]
          refine StExt _ _ ?_ (by simp [stepInstr, hi1, hi2]) (by simp [stepInstr, hi1, hi2, hout])
          funext x
          by_cases hx : x = d
          · simp [stepInstr, hi1, hi2, upd, hx]
          · simp [stepInstr, hi1, hi2, upd, hx]
            exact henv x (by rw [← hdt] at *; exact fun e => hx e)
  | label l => simp [defsVar] at hd
  | goto l => simp [defsVar] at hd
  | if_false c l => simp [defsVar] at hd
  | write a => simp [defsVar] at hd

theorem stepInstr_agree_ndef (t : String) (i : Instr) (s1 s2 : St)
    (hr : readsVar t i = false) (h : AgreeExcept t s1 s2)
    (hd : defsVar i ≠ some t) :
    AgreeExcept t (stepInstr i s1) (stepInstr i s2) := by
  obtain ⟨hin, hout, henv⟩ := h
  cases i with
  | assign d s =>
      have hdt : d ≠ t := by
        intro e; exact hd (by simp [defsVar, e])
      have hs : opUses t s = false := by simpa [readsVar] using hr
      have hw : evalOperand s1.env s = evalOperand s2.env s :=
        evalOperand_agree t s s1.env s2.env hs henv
      refine ⟨by simp [stepInstr, hin], by simp [stepInstr, hout], fun x hx => ?_⟩
      by_cases hxd : x = d
      · simp [stepInstr, upd, hxd, hw]
      · simp [stepInstr, upd, hxd]
        exact henv x hx
  | binop d o a b =>
      have hdt : d ≠ t := by
        intro e; exact hd (by simp [defsVar, e])
      obtain ⟨ha, hb⟩ := readsVar_binop_split t d o a b hr
      have hw : evalOp o (evalOperand s1.env a) (evalOperand s1.env b) =
          evalOp o (evalOperand s2.env a) (evalOperand s2.env b) := by
        rw [evalOperand_agree t a s1.env s2.env ha henv,
          evalOperand_agree t b s1.env s2.env hb henv]
      refine ⟨by simp [stepInstr, hin], by simp [stepInstr, hout], fun x hx => ?_⟩
      by_cases hxd : x = d
      · simp [stepInstr, upd, hxd, hw]
      · simp [stepInstr, upd, hxd]
        exact henv x hx
  | int2float d a =>
      have hdt : d ≠ t := by
        intro e; exact hd (by simp [defsVar, e])
      have ha : opUses t a = false := by simpa [readsVar] using hr
      have hw : evalOperand s1.env a = evalOperand s2.env a :=
        evalOperand_agree t a s1.env s2.env ha henv
      refine ⟨by simp [stepInstr, hin], by simp [stepInstr, hout], fun x hx => ?_⟩
      by_cases hxd : x = d
      · simp [stepInstr, upd, hxd, hw]
      · simp [stepInstr, upd, hxd]
        exact henv x hx
  | read d =>
      cases hi1 : s1.input with
      | nil =>
          have hi2 : s2.input = [] := by rw [← hin, hi1]
          refine ⟨by simp [stepInstr, hi1, hi2], by simp [stepInstr, hi1, hi2, hout],
            fun x hx => ?_⟩
          by_cases hxd : x = d
          · simp [stepInstr, hi1, hi2, upd, hxd]
          · simp [stepInstr, hi1, hi2, upd, hxd]
            exact henv x hx
      | cons v rest =>
          have hi2 : s2.input = v :: rest := by rw [← hin, hi1]
          refine ⟨by simp [stepInstr, hi1, hi2], by simp [stepInstr, hi1, hi2, hout],
            fun x hx => ?_⟩
          by_cases hxd : x = d
          · simp [stepInstr, hi1, hi2, upd, hxd]
          · simp [stepInstr, hi1, hi2, upd, hxd]
            exact henv x hx
  | write a =>
      have ha : opUses t a = false := by simpa [readsVar] using hr
      have hw : evalOperand s1.env a = evalOperand s2.env a :=
        evalOperand_agree t a s1.env s2.env ha henv
      exact ⟨by simp [stepInstr, hin], by simp [stepInstr, hout, hw], fun x hx => by
        simp [stepInstr]; exact henv x hx⟩
  | label l => exact ⟨hin, hout, henv⟩
  | goto l => exact ⟨hin, hout, henv⟩
  | if_false c l => exact ⟨hin, hout, henv⟩

theorem execList_agree (t : String) :
    ∀ (q : List Instr) (s1 s2 : St), AgreeExcept t s1 s2 →
      noUseBeforeRedef t q = true →
      AgreeExcept t (execList q s1) (execList q s2) := by
  intro q
  induction q with
  | nil => intro s1 s2 h _; exact h
  | cons j rest ih =>
      intro s1 s2 h hn
      simp only [noUseBeforeRedef, Bool.and_eq_true, Bool.or_eq_true, beq_iff_eq] at hn
      obtain ⟨hu, hrest⟩ := hn
      have hr : readsVar t j = false := usesCount_zero_readsVar t j (by simpa using hu)
      rw [execList_cons, execList_cons]
      by_cases hd : defsVar j = some t
      · have heq := stepInstr_agree_def t j s1 s2 hr h hd
        rw [heq]
        exact AgreeExcept_refl t _
      · have hrest2 : noUseBeforeRedef t rest = true := by
          rcases hrest with h1 | h2
          · exact absurd h1 hd
          · exact h2
        exact ih (stepInstr j s1) (stepInstr j s2)
          (stepInstr_agree_ndef t j s1 s2 hr h hd) hrest2

theorem stepInstr_preserves_var (j : Instr) (y : String) (st : St)
    (hd : defsVar j ≠ some y) : (stepInstr j st).env y = st.env y := by
  cases j with
  | assign d s =>
      have hdy : y ≠ d := fun e => hd (by simp [defsVar, e])
      simp [stepInstr, upd, hdy]
  | binop d o a b =>
      have hdy : y ≠ d := fun e => hd (by simp [defsVar, e])
      simp [stepInstr, upd, hdy]
  | int2float d a =>
      have hdy : y ≠ d := fun e => hd (by simp [defsVar, e])
      simp [stepInstr, upd, hdy]
  | read d =>
      have hdy : y ≠ d := fun e => hd (by simp [defsVar, e])
      cases hi : st.input <;> simp [stepInstr, hi, upd, hdy]
  | write a => rfl
  | label l => rfl
  | goto l => rfl
  | if_false c l => rfl

theorem srcKilled_preserves (src : Operand) (j : Instr) (st : St)
    (hk : srcKilled src j = false) :
    evalOperand (stepInstr j st).env src = evalOperand st.env src := by
  cases src with
  | lit ty v txt => rfl
  | var y =>
      have hd : defsVar j ≠ some y := by
        intro e
        simp [srcKilled, e] at hk
      exact stepInstr_preserves_var j y st hd

theorem stepInstr_updSt_comm (t : String) (v : ℚ) (j : Instr) (st : St)
    (hr : readsVar t j = false) (hd : defsVar j ≠ some t) :
    stepInstr j (updSt t v st) = updSt t v (stepInstr j st) := by
  cases j with
  | assign d s =>
      have hdt : d ≠ t := fun e => hd (by simp [defsVar, e])
      have hs : opUses t s = false := by simpa [readsVar] using hr
      refine StExt _ _ ?_ rfl rfl
      show upd (upd st.env t v) d (evalOperand (upd st.env t v) s) =
        upd (upd st.env d (evalOperand st.env s)) t v
      rw [evalOperand_upd t v s st.env hs, upd_comm st.env t d v _ (fun e => hdt e.symm)]
  | binop d o a b =>
      have hdt : d ≠ t := fun e => hd (by simp [defsVar, e])
      obtain ⟨ha, hb⟩ := readsVar_binop_split t d o a b hr
      refine StExt _ _ ?_ rfl rfl
      simp only [stepInstr, updSt]
      rw [evalOperand_upd t v a st.env ha, evalOperand_upd t v b st.env hb]
      exact upd_comm st.env t d v _ (fun e => hdt e.symm)
  | int2float d a =>
      have hdt : d ≠ t := fun e => hd (by simp [defsVar, e])
      have ha : opUses t a = false := by simpa [readsVar] using hr
      refine StExt _ _ ?_ rfl rfl
      show upd (upd st.env t v) d (evalOperand (upd st.env t v) a) =
        upd (upd st.env d (evalOperand st.env a)) t v
      rw [evalOperand_upd t v a st.env ha, upd_comm st.env t d v _ (fun e => hdt e.symm)]
  | read d =>
      have hdt : d ≠ t := fun e => hd (by simp [defsVar, e])
      cases hi : st.input with
      | nil =>
          refine StExt _ _ ?_ (by simp [stepInstr, updSt, hi]) (by simp [stepInstr, updSt, hi])
          simp only [stepInstr, updSt, hi]
          exact upd_comm st.env t d v 0 (fun e => hdt e.symm)
      | cons w rest =>
          refine StExt _ _ ?_ (by simp [stepInstr, updSt, hi]) (by simp [stepInstr, updSt, hi])
          simp only [stepInstr, updSt, hi]
          exact upd_comm st.env t d v w (fun e => hdt e.symm)
  | write a =>
      have ha : opUses t a = false := by simpa [readsVar] using hr
      refine StExt _ _ rfl rfl ?_
      show (updSt t v st).output ++ [evalOperand (upd st.env t v) a] = _
      rw [evalOperand_upd t v a st.env ha]
      rfl
  | label l => rfl
  | goto l => rfl
  | if_false c l => rfl

theorem stepInstr_pure_updSt (i : Instr) (d : String) (st : St)
    (hp : pureInstr i = true) (hd : defsVar i = some d) :
    ∃ w, stepInstr i st = updSt d w st := by
  cases i with
  | assign d2 s =>
      have : d2 = d := by simpa [defsVar] using hd
      exact ⟨evalOperand st.env s, by rw [← this]; rfl⟩
  | binop d2 o a b =>
      have : d2 = d := by simpa [defsVar] using hd
      exact ⟨evalOp o (evalOperand st.env a) (evalOperand st.env b), by rw [← this]; rfl⟩
  | int2float d2 a =>
      have : d2 = d := by simpa [defsVar] using hd
      exact ⟨evalOperand st.env a, by rw [← this]; rfl⟩
  | read d2 => simp [pureInstr] at hp
  | write a => simp [pureInstr] at hp
  | label l => simp [pureInstr] at hp
  | goto l => simp [pureInstr] at hp
  | if_false c l => simp [pureInstr] at hp

theorem readsVar_false_usesCount (t : String) (i : Instr)
    (h : readsVar t i = false) : usesCount t i = 0 := by
  cases i <;> simp [readsVar] at h <;> simp [usesCount, h]

theorem noUse_of_all_noreads (t : String) (q : List Instr)
    (h : q.all (fun j => !readsVar t j) = true) : noUseBeforeRedef t q = true := by
  induction q with
  | nil => rfl
  | cons j rest ih =>
      simp only [List.all_cons, Bool.and_eq_true, Bool.not_eq_true'] at h
      obtain ⟨hj, hrest⟩ := h
      have hu : usesCount t j = 0 := readsVar_false_usesCount t j hj
      simp only [noUseBeforeRedef, Bool.and_eq_true, Bool.or_eq_true]
      exact ⟨by simpa using hu, Or.inr (ih hrest)⟩

theorem dceOnce_correct (p : List Instr) :
    ∀ st : St, RelSt (execList (dceOnce p) st) (execList p st) := by
  induction p with
  | nil => intro st; exact RelSt_refl st
  | cons i rest ih =>
      intro st
      by_cases hdead : deadAt i rest = true
      · simp only [dceOnce, hdead, if_true]
        simp only [deadAt, Bool.and_eq_true] at hdead
        obtain ⟨hpure, hrest⟩ := hdead
        cases hd : defsVar i with
        | none => rw [hd] at hrest; simp at hrest
        | some d =>
            rw [hd] at hrest
            simp only [Bool.and_eq_true] at hrest
            obtain ⟨htemp, hall⟩ := hrest
            obtain ⟨w, hw⟩ := stepInstr_pure_updSt i d st hpure hd
            rw [execList_cons, hw]
            have hagree := execList_agree d rest st (updSt d w st)
              (AgreeExcept_updSt d w st) (noUse_of_all_noreads d rest hall)
            exact RelSt_of_agree d htemp _ _ hagree
      · simp only [dceOnce, hdead, Bool.false_eq_true, if_false]
        rw [execList_cons, execList_cons]
        exact ih (stepInstr i st)

theorem evalOperand_opSubst (t : String) (src : Operand) (o : Operand)
    (env : String → ℚ) (v : ℚ) (hv : v = evalOperand env src) :
    evalOperand env (opSubst t src o) = evalOperand (upd env t v) o := by
  cases o with
  | lit ty w txt => rfl
  | var y =>
      by_cases hy : y = t
      · simp [opSubst, hy, evalOperand, upd]
        exact hv.symm
      · simp [opSubst, hy, evalOperand, upd]

theorem stepInstr_subst_agree (t : String) (src : Operand) (j : Instr) (st : St)
    (v : ℚ) (hv : v = evalOperand st.env src) :
    AgreeExcept t (stepInstr j (updSt t v st)) (stepInstr (substReads t src j) st) := by
  cases j with
  | assign d s =>
      have hw : evalOperand st.env (opSubst t src s) =
          evalOperand (upd st.env t v) s := evalOperand_opSubst t src s st.env v hv
      refine ⟨rfl, rfl, fun x hx => ?_⟩
      by_cases hxd : x = d
      · simp [stepInstr, substReads, updSt, upd, hxd, hw]
      · simp [stepInstr, substReads, updSt, upd, hxd, hx]
  | binop d o a b =>
      have hwa : evalOperand st.env (opSubst t src a) =
          evalOperand (upd st.env t v) a := evalOperand_opSubst t src a st.env v hv
      have hwb : evalOperand st.env (opSubst t src b) =
          evalOperand (upd st.env t v) b := evalOperand_opSubst t src b st.env v hv
      refine ⟨rfl, rfl, fun x hx => ?_⟩
      by_cases hxd : x = d
      · simp [stepInstr, substReads, updSt, upd, hxd, hwa, hwb]
      · simp [stepInstr, substReads, updSt, upd, hxd, hx]
  | int2float d a =>
      have hwa : evalOperand st.env (opSubst t src a) =
          evalOperand (upd st.env t v) a := evalOperand_opSubst t src a st.env v hv
      refine ⟨rfl, rfl, fun x hx => ?_⟩
      by_cases hxd : x = d
      · simp [stepInstr, substReads, updSt, upd, hxd, hwa]
      · simp [stepInstr, substReads, updSt, upd, hxd, hx]
  | read d =>
      cases hi : st.input with
      | nil =>
          refine ⟨by simp [stepInstr, substReads, updSt, hi],
            by simp [stepInstr, substReads, updSt, hi], fun x hx => ?_⟩
          by_cases hxd : x = d
          · simp [stepInstr, substReads, updSt, upd, hi, hxd]
          · simp [stepInstr, substReads, updSt, upd, hi, hxd, hx]
      | cons w rest =>
          refine ⟨by simp [stepInstr, substReads, updSt, hi],
            by simp [stepInstr, substReads, updSt, hi], fun x hx => ?_⟩
          by_cases hxd : x = d
          · simp [stepInstr, substReads, updSt, upd, hi, hxd]
          · simp [stepInstr, substReads, updSt, upd, hi, hxd, hx]
  | write a =>
      have hwa : evalOperand st.env (opSubst t src a) =
          evalOperand (upd st.env t v) a := evalOperand_opSubst t src a st.env v hv
      exact ⟨rfl, by simp [stepInstr, substReads, updSt, hwa], fun x hx => by
        simp [stepInstr, substReads, updSt, upd, hx]⟩
  | label l =>
      exact ⟨rfl, rfl, fun x hx => by simp [stepInstr, substReads, updSt, upd, hx]⟩
  | goto l =>
      exact ⟨rfl, rfl, fun x hx => by simp [stepInstr, substReads, updSt, upd, hx]⟩
  | if_false c l =>
      exact ⟨rfl, rfl, fun x hx => by simp [stepInstr, substReads, updSt, upd, hx]⟩

theorem cpFind_sound (t : String) (src : Operand) (ht : isTemp t = true) :
    ∀ (rest rest2 : List Instr) (st : St),
      cpFind t src rest = some rest2 →
      RelSt (execList rest2 st)
        (execList rest (updSt t (evalOperand st.env src) st)) := by
  intro rest
  induction rest with
  | nil => intro rest2 st h; simp [cpFind] at h
  | cons j rest' ih =>
      intro rest2 st h
      simp only [cpFind] at h
      by_cases h0 : (usesCount t j == 0) = true
      · rw [if_pos h0] at h
        by_cases hd : (defsVar j == some t) = true
        · rw [if_pos hd] at h; simp at h
        · rw [if_neg hd] at h
          by_cases hk : srcKilled src j = true
          · rw [if_pos hk] at h; simp at h
          · rw [if_neg hk] at h
            cases hf : cpFind t src rest' with
            | none => rw [hf] at h; simp at h
            | some rr2 =>
                rw [hf] at h
                simp at h
                rw [← h, execList_cons, execList_cons]
                have hr : readsVar t j = false :=
                  usesCount_zero_readsVar t j (by simpa using h0)
                have hdne : defsVar j ≠ some t := by simpa using hd
                rw [stepInstr_updSt_comm t _ j st hr hdne]
                have hv2 : evalOperand st.env src =
                    evalOperand (stepInstr j st).env src :=
                  (srcKilled_preserves src j st (by simpa using hk)).symm
                rw [hv2]
                exact ih rr2 (stepInstr j st) hf
      · rw [if_neg h0] at h
        by_cases h1 : (usesCount t j == 1) = true
        · rw [if_pos h1] at h
          by_cases hn : noUseBeforeRedef t rest' = true
          · rw [if_pos hn] at h
            simp at h
            rw [← h, execList_cons, execList_cons]
            have hagree := stepInstr_subst_agree t src j st
              (evalOperand st.env src) rfl
            have hfin := execList_agree t rest' _ _ hagree hn
            exact RelSt_of_agree t ht _ _ (AgreeExcept_symm t _ _ hfin)
          · rw [if_neg hn] at h; simp at h
        · rw [if_neg h1] at h; simp at h

theorem cpOnce_correct (p : List Instr) :
    ∀ st : St, RelSt (execList (cpOnce p) st) (execList p st) := by
  induction p with
  | nil => intro st; exact RelSt_refl st
  | cons i rest ih =>
      intro st
      cases i with
      | assign d s =>
          simp only [cpOnce]
          by_cases hg : (isTemp d && !opUses d s) = true
          · simp only [hg, if_true]
            cases hf : cpFind d s rest with
            | some rest2 =>
                have htd : isTemp d = true := by
                  simp only [Bool.and_eq_true] at hg
                  exact hg.1
                rw [execList_cons]
                have hstep : stepInstr (.assign d s) st =
                    updSt d (evalOperand st.env s) st := rfl
                rw [hstep]
                exact cpFind_sound d s htd rest rest2 st hf
            | none =>
                rw [execList_cons, execList_cons]
                exact ih (stepInstr (.assign d s) st)
          · simp only [hg, Bool.false_eq_true, if_false]
            rw [execList_cons, execList_cons]
            exact ih (stepInstr (.assign d s) st)
      | binop d o a b =>
          simp only [cpOnce]
          rw [execList_cons, execList_cons]
          exact ih _
      | int2float d a =>
          simp only [cpOnce]
          rw [execList_cons, execList_cons]
          exact ih _
      | label l =>
          simp only [cpOnce]
          rw [execList_cons, execList_cons]
          exact ih _
      | goto l =>
          simp only [cpOnce]
          rw [execList_cons, execList_cons]
          exact ih _
      | if_false c l =>
          simp only [cpOnce]
          rw [execList_cons, execList_cons]
          exact ih _
      | read d =>
          simp only [cpOnce]
          rw [execList_cons, execList_cons]
          exact ih _
      | write a =>
          simp only [cpOnce]
          rw [execList_cons, execList_cons]
          exact ih _

theorem optStep_correct (p : List Instr) (st : St) :
    RelSt (execList (optStep p) st) (execList p st) := by
  have e1 : execList (p.map foldI2F) st = execList p st :=
    execList_map_semEq foldI2F stepInstr_foldI2F p st
  have r2 := cpOnce_correct (p.map foldI2F) st
  have e3 : execList ((cpOnce (p.map foldI2F)).map algSimp) st =
      execList (cpOnce (p.map foldI2F)) st :=
    execList_map_semEq algSimp stepInstr_algSimp _ st
  have r4 := dceOnce_correct ((cpOnce (p.map foldI2F)).map algSimp) st
  unfold optStep
  refine RelSt_trans _ _ _ r4 ?_
  rw [e3]
  exact RelSt_trans _ _ _ r2 (RelSt_of_eq _ _ e1)

theorem iterOpt_correct (n : Nat) :
    ∀ (p : List Instr) (st : St),
      RelSt (execList (iterOpt n p) st) (execList p st) := by
  induction n with
  | zero => intro p st; exact RelSt_refl _
  | succ n ih =>
      intro p st
      simp only [iterOpt]
      by_cases h : optStep p = p
      · rw [if_pos h]; exact RelSt_refl _
      · rw [if_neg h]
        exact RelSt_trans _ _ _ (ih (optStep p) st) (optStep_correct p st)

theorem optimize_correct_fold (p : List Instr) (st : St) :
    RelSt (execList (optimize p) st) (execList p st) :=
  iterOpt_correct _ p st

theorem notControl_foldI2F (i : Instr) (h : notControl i = true) :
    notControl (foldI2F i) = true := by
  cases i with
  | int2float d a => cases a <;> simp [foldI2F, notControl]
  | _ => exact h

theorem notControl_algSimp (i : Instr) (h : notControl i = true) :
    notControl (algSimp i) = true := by
  cases i with
  | binop d o a b =>
      simp only [algSimp]
      split_ifs <;> simp [notControl]
  | _ => exact h

theorem notControl_substReads (t : String) (src : Operand) (i : Instr)
    (h : notControl i = true) : notControl (substReads t src i) = true := by
  cases i <;> simp_all [substReads, notControl]

theorem noControlFlow_map (φ : Instr → Instr)
    (hφ : ∀ i, notControl i = true → notControl (φ i) = true)
    (p : List Instr) (h : noControlFlow p = true) :
    noControlFlow (p.map φ) = true := by
  simp only [noControlFlow, List.all_map, List.all_eq_true] at h ⊢
  intro i hi
  exact hφ i (h i hi)

theorem noControlFlow_cpFind (t : String) (src : Operand) :
    ∀ (rest rest2 : List Instr), cpFind t src rest = some rest2 →
      rest.all notControl = true → rest2.all notControl = true := by
  intro rest
  induction rest with
  | nil => intro rest2 h _; simp [cpFind] at h
  | cons j rest' ih =>
      intro rest2 h hall
      simp only [List.all_cons, Bool.and_eq_true] at hall
      obtain ⟨hj, hrest⟩ := hall
      simp only [cpFind] at h
      by_cases h0 : (usesCount t j == 0) = true
      · rw [if_pos h0] at h
        by_cases hd : (defsVar j == some t) = true
        · rw [if_pos hd] at h; simp at h
        · rw [if_neg hd] at h
          by_cases hk : srcKilled src j = true
          · rw [if_pos hk] at h; simp at h
          · rw [if_neg hk] at h
            cases hf : cpFind t src rest' with
            | none => rw [hf] at h; simp at h
            | some rr2 =>
                rw [hf] at h
                simp at h
                rw [← h]
                simp only [List.all_cons, Bool.and_eq_true]
                exact ⟨hj, ih rr2 hf hrest⟩
      · rw [if_neg h0] at h
        by_cases h1 : (usesCount t j == 1) = true
        · rw [if_pos h1] at h
          by_cases hn : noUseBeforeRedef t rest' = true
          · rw [if_pos hn] at h
            simp at h
            rw [← h]
            simp only [List.all_cons, Bool.and_eq_true]
            exact ⟨notControl_substReads t src j hj, hrest⟩
          · rw [if_neg hn] at h; simp at h
        · rw [if_neg h1] at h; simp at h

theorem noControlFlow_cpOnce (p : List Instr) (h : noControlFlow p = true) :
    noControlFlow (cpOnce p) = true := by
  induction p with
  | nil => exact h
  | cons i rest ih =>
      simp only [noControlFlow, List.all_cons, Bool.and_eq_true] at h
      obtain ⟨hi, hrest⟩ := h
      cases i with
      | assign d s =>
          simp only [cpOnce]
          by_cases hg : (isTemp d && !opUses d s) = true
          · simp only [hg, if_true]
            cases hf : cpFind d s rest with
            | some rest2 =>
                exact noControlFlow_cpFind d s rest rest2 hf hrest
            | none =>
                simp only [noControlFlow, List.all_cons, Bool.and_eq_true]
                exact ⟨hi, ih hrest⟩
          · simp only [hg, Bool.false_eq_true, if_false]
            simp only [noControlFlow, List.all_cons, Bool.and_eq_true]
            exact ⟨hi, ih hrest⟩
      | binop d o a b =>
          simp only [cpOnce, noControlFlow, List.all_cons, Bool.and_eq_true]
          exact ⟨hi, ih hrest⟩
      | int2float d a =>
          simp only [cpOnce, noControlFlow, List.all_cons, Bool.and_eq_true]
          exact ⟨hi, ih hrest⟩
      | label l =>
          simp only [cpOnce, noControlFlow, List.all_cons, Bool.and_eq_true]
          exact ⟨hi, ih hrest⟩
      | goto l =>
          simp only [cpOnce, noControlFlow, List.all_cons, Bool.and_eq_true]
          exact ⟨hi, ih hrest⟩
      | if_false c l =>
          simp only [cpOnce, noControlFlow, List.all_cons, Bool.and_eq_true]
          exact ⟨hi, ih hrest⟩
      | read d =>
          simp only [cpOnce, noControlFlow, List.all_cons, Bool.and_eq_true]
          exact ⟨hi, ih hrest⟩
      | write a =>
          simp only [cpOnce, noControlFlow, List.all_cons, Bool.and_eq_true]
          exact ⟨hi, ih hrest⟩

theorem noControlFlow_dceOnce (p : List Instr) (h : noControlFlow p = true) :
    noControlFlow (dceOnce p) = true := by
  induction p with
  | nil => exact h
  | cons i rest ih =>
      simp only [noControlFlow, List.all_cons, Bool.and_eq_true] at h
      obtain ⟨hi, hrest⟩ := h
      by_cases hdead : deadAt i rest = true
      · simp only [dceOnce, hdead, if_true]
        exact hrest
      · simp only [dceOnce, hdead, Bool.false_eq_true, if_false]
        simp only [noControlFlow, List.all_cons, Bool.and_eq_true]
        exact ⟨hi, ih hrest⟩

theorem noControlFlow_optStep (p : List Instr) (h : noControlFlow p = true) :
    noControlFlow (optStep p) = true := by
  unfold optStep
  exact noControlFlow_dceOnce _
    (noControlFlow_map algSimp notControl_algSimp _
      (noControlFlow_cpOnce _
        (noControlFlow_map foldI2F notControl_foldI2F p h)))

theorem noControlFlow_iterOpt (n : Nat) :
    ∀ p : List Instr, noControlFlow p = true →
      noControlFlow (iterOpt n p) = true := by
  induction n with
  | zero => intro p h; exact h
  | succ n ih =>
      intro p h
      simp only [iterOpt]
      by_cases he : optStep p = p
      · rw [if_pos he]; exact h
      · rw [if_neg he]
        exact ih (optStep p) (noControlFlow_optStep p h)

theorem noControlFlow_optimize (p : List Instr) (h : noControlFlow p = true) :
    noControlFlow (optimize p) = true :=
  noControlFlow_iterOpt _ p h

theorem nextPc_notControl (p : List Instr) (pc : Nat) (i : Instr) (st : St)
    (h : notControl i = true) : nextPc p pc i st = pc + 1 := by
  cases i <;> simp_all [notControl, nextPc]

theorem runTac_straightline (n : Nat) :
    ∀ (p : List Instr) (pc : Nat) (st : St), noControlFlow p = true →
      p.length - pc ≤ n →
      runTac n p pc st = some (execList (p.drop pc) st) := by
  induction n with
  | zero =>
      intro p pc st hcf hn
      have hge : p.length ≤ pc := by omega
      rw [runTac]
      rw [dif_neg (by omega)]
      rw [List.drop_eq_nil_of_le hge]
      rfl
  | succ n ih =>
      intro p pc st hcf hn
      by_cases hpc : pc < p.length
      · rw [runTac, dif_pos hpc]
        dsimp only
        have hmem : p[pc] ∈ p := List.getElem_mem hpc
        have hnc : notControl p[pc] = true := by
          simp only [noControlFlow, List.all_eq_true] at hcf
          exact hcf _ hmem
        rw [nextPc_notControl p pc _ st hnc]
        rw [ih p (pc + 1) (stepInstr p[pc] st) hcf (by omega)]
        rw [List.drop_eq_getElem_cons hpc, execList_cons]
      · rw [runTac, dif_neg hpc]
        rw [List.drop_eq_nil_of_le (by omega)]
        rfl

/-- C1 (amended): for every straight-line TAC sequence — one containing no
control-flow instructions (the spec's copy-propagation and dead-code
conditions are textual and are not sound across branches, see the
counterexample) — and every initial state, running the optimized sequence
under the conforming TAC interpreter produces exactly the same ordered
sequence of write-output values and the same final value for every
non-temporary variable as running the original sequence. -/
theorem optimize_preserves_straightline (p : List Instr) (st : St)
    (h : noControlFlow p = true) :
    ∃ s1 s2, runTac p.length p 0 st = some s1 ∧
      runTac (optimize p).length (optimize p) 0 st = some s2 ∧
      s1.output = s2.output ∧
      ∀ x, isTemp x = false → s1.env x = s2.env x := by
  have h2 : noControlFlow (optimize p) = true := noControlFlow_optimize p h
  have b1 : runTac p.length p 0 st = some (execList p st) := by
    have := runTac_straightline p.length p 0 st h (by omega)
    simpa using this
  have b2 : runTac (optimize p).length (optimize p) 0 st =
      some (execList (optimize p) st) := by
    have := runTac_straightline (optimize p).length (optimize p) 0 st h2 (by omega)
    simpa using this
  obtain ⟨_, hout, henv⟩ := optimize_correct_fold p st
  exact ⟨execList p st, execList (optimize p) st, b1, b2, hout.symm,
    fun x hx => (henv x hx).symm⟩

/-- Witness for C1 at the scenario TAC of `x := 5 + 3 * 2;`. -/
theorem optimize_preserves_straightline_witness :
    noControlFlow
      [ Instr.binop "temp1" .mul (.lit .int 3 "3") (.lit .int 2 "2"),
        Instr.binop "temp2" .add (.lit .int 5 "5") (.var "temp1"),
        Instr.assign "id1" (.var "temp2") ] = true ∧
    ∃ s1 s2,
      runTac 3
        [ Instr.binop "temp1" .mul (.lit .int 3 "3") (.lit .int 2 "2"),
          Instr.binop "temp2" .add (.lit .int 5 "5") (.var "temp1"),
          Instr.assign "id1" (.var "temp2") ] 0 ⟨fun _ => 0, [], []⟩ = some s1 ∧
      runTac (optimize
        [ Instr.binop "temp1" .mul (.lit .int 3 "3") (.lit .int 2 "2"),
          Instr.binop "temp2" .add (.lit .int 5 "5") (.var "temp1"),
          Instr.assign "id1" (.var "temp2") ]).length (optimize
        [ Instr.binop "temp1" .mul (.lit .int 3 "3") (.lit .int 2 "2"),
          Instr.binop "temp2" .add (.lit .int 5 "5") (.var "temp1"),
          Instr.assign "id1" (.var "temp2") ]) 0 ⟨fun _ => 0, [], []⟩ = some s2 ∧
      s1.output = s2.output ∧
      ∀ x, isTemp x = false → s1.env x = s2.env x := by
  exact ⟨by decide, optimize_preserves_straightline
    [ Instr.binop "temp1" .mul (.lit .int 3 "3") (.lit .int 2 "2"),
      Instr.binop "temp2" .add (.lit .int 5 "5") (.var "temp1"),
      Instr.assign "id1" (.var "temp2") ] ⟨fun _ => 0, [], []⟩ (by decide)⟩

/-- Counterexample for C1 as stated: on a TAC sequence with control flow, the
spec's textual dead-code rule ("result temporary never subsequently read")
removes an assignment that a backward jump still observes — the original run
writes 5, the optimized run writes 0. -/
theorem optimize_cex_control_flow :
    (runTac 8
      [ Instr.goto "L2", Instr.label "L1", Instr.write (.var "temp1"),
        Instr.goto "L3", Instr.label "L2",
        Instr.assign "temp1" (.lit .int 5 "5"), Instr.goto "L1",
        Instr.label "L3" ] 0 ⟨fun _ => 0, [], []⟩).map St.output =
      some [(5 : ℚ)] ∧
    (runTac 7 (optimize
      [ Instr.goto "L2", Instr.label "L1", Instr.write (.var "temp1"),
        Instr.goto "L3", Instr.label "L2",
        Instr.assign "temp1" (.lit .int 5 "5"), Instr.goto "L1",
        Instr.label "L3" ]) 0 ⟨fun _ => 0, [], []⟩).map St.output =
      some [(0 : ℚ)] ∧
    (optimize
      [ Instr.goto "L2", Instr.label "L1", Instr.write (.var "temp1"),
        Instr.goto "L3", Instr.label "L2",
        Instr.assign "temp1" (.lit .int 5 "5"), Instr.goto "L1",
        Instr.label "L3" ]).length = 7 ∧
    some [(5 : ℚ)] ≠ some [(0 : ℚ)] := by
  refine ⟨by rfl, by rfl, by rfl, ?_⟩
  simp

theorem instrWeight_pos (i : Instr) : 1 ≤ instrWeight i := by
  cases i <;> simp [instrWeight]

theorem optMeasure_nil : optMeasure [] = 0 := rfl

theorem optMeasure_cons (i : Instr) (q : List Instr) :
    optMeasure (i :: q) = instrWeight i + optMeasure q := by
  simp [optMeasure]

theorem foldI2F_weight_le (i : Instr) : instrWeight (foldI2F i) ≤ instrWeight i := by
  cases i with
  | int2float d a => cases a <;> simp [foldI2F, instrWeight]
  | _ => simp [foldI2F, instrWeight]

theorem foldI2F_weight_lt (i : Instr) (h : foldI2F i ≠ i) :
    instrWeight (foldI2F i) < instrWeight i := by
  cases i with
  | int2float d a =>
      cases a with
      | lit ty v txt => simp [foldI2F, instrWeight]
      | var x => exact absurd rfl h
  | assign d s => exact absurd rfl h
  | binop d o a b => exact absurd rfl h
  | label l => exact absurd rfl h
  | goto l => exact absurd rfl h
  | if_false c l => exact absurd rfl h
  | read d => exact absurd rfl h
  | write a => exact absurd rfl h

theorem algSimp_weight_le (i : Instr) : instrWeight (algSimp i) ≤ instrWeight i := by
  cases i with
  | binop d o a b =>
      simp only [algSimp]
      split_ifs <;> simp [instrWeight]
  | _ => simp [algSimp, instrWeight]

theorem algSimp_weight_lt (i : Instr) (h : algSimp i ≠ i) :
    instrWeight (algSimp i) < instrWeight i := by
  cases i with
  | binop d o a b =>
      simp only [algSimp] at h ⊢
      split_ifs at h ⊢ <;> first | exact absurd rfl h | simp [instrWeight]
  | assign d s => exact absurd rfl h
  | int2float d a => exact absurd rfl h
  | label l => exact absurd rfl h
  | goto l => exact absurd rfl h
  | if_false c l => exact absurd rfl h
  | read d => exact absurd rfl h
  | write a => exact absurd rfl h

theorem optMeasure_map_le (φ : Instr → Instr)
    (hφ : ∀ i, instrWeight (φ i) ≤ instrWeight i) (p : List Instr) :
    optMeasure (p.map φ) ≤ optMeasure p := by
  induction p with
  | nil => simp [optMeasure]
  | cons i rest ih =>
      rw [List.map_cons, optMeasure_cons, optMeasure_cons]
      exact Nat.add_le_add (hφ i) ih

theorem optMeasure_map_lt (φ : Instr → Instr)
    (hle : ∀ i, instrWeight (φ i) ≤ instrWeight i)
    (hlt : ∀ i, φ i ≠ i → instrWeight (φ i) < instrWeight i) :
    ∀ p : List Instr, p.map φ ≠ p → optMeasure (p.map φ) < optMeasure p := by
  intro p
  induction p with
  | nil => intro h; simp at h
  | cons i rest ih =>
      intro h
      rw [List.map_cons, optMeasure_cons, optMeasure_cons]
      by_cases hi : φ i = i
      · have hrest : rest.map φ ≠ rest := by
          intro e
          exact h (by rw [List.map_cons, hi, e])
        exact Nat.add_lt_add_of_le_of_lt (hle i) (ih hrest)
      · exact Nat.add_lt_add_of_lt_of_le (hlt i hi)
          (optMeasure_map_le φ hle rest)

theorem substReads_weight (t : String) (src : Operand) (i : Instr) :
    instrWeight (substReads t src i) = instrWeight i := by
  cases i <;> simp [substReads, instrWeight]

theorem cpFind_measure (t : String) (src : Operand) :
    ∀ (rest rest2 : List Instr), cpFind t src rest = some rest2 →
      optMeasure rest2 = optMeasure rest := by
  intro rest
  induction rest with
  | nil => intro rest2 h; simp [cpFind] at h
  | cons j rest' ih =>
      intro rest2 h
      simp only [cpFind] at h
      by_cases h0 : (usesCount t j == 0) = true
      · rw [if_pos h0] at h
        by_cases hd : (defsVar j == some t) = true
        · rw [if_pos hd] at h; simp at h
        · rw [if_neg hd] at h
          by_cases hk : srcKilled src j = true
          · rw [if_pos hk] at h; simp at h
          · rw [if_neg hk] at h
            cases hf : cpFind t src rest' with
            | none => rw [hf] at h; simp at h
            | some rr2 =>
                rw [hf] at h
                simp at h
                rw [← h, optMeasure_cons, optMeasure_cons, ih rr2 hf]
      · rw [if_neg h0] at h
        by_cases h1 : (usesCount t j == 1) = true
        · rw [if_pos h1] at h
          by_cases hn : noUseBeforeRedef t rest' = true
          · rw [if_pos hn] at h
            simp at h
            rw [← h, optMeasure_cons, optMeasure_cons, substReads_weight]
          · rw [if_neg hn] at h; simp at h
        · rw [if_neg h1] at h; simp at h

theorem cpOnce_measure (p : List Instr) :
    cpOnce p = p ∨ optMeasure (cpOnce p) < optMeasure p := by
  induction p with
  | nil => exact Or.inl rfl
  | cons i rest ih =>
      cases i with
      | assign d s =>
          simp only [cpOnce]
          by_cases hg : (isTemp d && !opUses d s) = true
          · simp only [hg, if_true]
            cases hf : cpFind d s rest with
            | some rest2 =>
                right
                rw [cpFind_measure d s rest rest2 hf, optMeasure_cons]
                have := instrWeight_pos (.assign d s)
                omega
            | none =>
                rcases ih with he | hl
                · exact Or.inl (by rw [he])
                · right
                  rw [optMeasure_cons, optMeasure_cons]
                  omega
          · simp only [hg, Bool.false_eq_true, if_false]
            rcases ih with he | hl
            · exact Or.inl (by rw [he])
            · right
              rw [optMeasure_cons, optMeasure_cons]
              omega
      | binop d o a b =>
          simp only [cpOnce]
          rcases ih with he | hl
          · exact Or.inl (by rw [he])
          · right; rw [optMeasure_cons, optMeasure_cons]; omega
      | int2float d a =>
          simp only [cpOnce]
          rcases ih with he | hl
          · exact Or.inl (by rw [he])
          · right; rw [optMeasure_cons, optMeasure_cons]; omega
      | label l =>
          simp only [cpOnce]
          rcases ih with he | hl
          · exact Or.inl (by rw [he])
          · right; rw [optMeasure_cons, optMeasure_cons]; omega
      | goto l =>
          simp only [cpOnce]
          rcases ih with he | hl
          · exact Or.inl (by rw [he])
          · right; rw [optMeasure_cons, optMeasure_cons]; omega
      | if_false c l =>
          simp only [cpOnce]
          rcases ih with he | hl
          · exact Or.inl (by rw [he])
          · right; rw [optMeasure_cons, optMeasure_cons]; omega
      | read d =>
          simp only [cpOnce]
          rcases ih with he | hl
          · exact Or.inl (by rw [he])
          · right; rw [optMeasure_cons, optMeasure_cons]; omega
      | write a =>
          simp only [cpOnce]
          rcases ih with he | hl
          · exact Or.inl (by rw [he])
          · right; rw [optMeasure_cons, optMeasure_cons]; omega

theorem dceOnce_measure (p : List Instr) :
    dceOnce p = p ∨ optMeasure (dceOnce p) < optMeasure p := by
  induction p with
  | nil => exact Or.inl rfl
  | cons i rest ih =>
      by_cases hdead : deadAt i rest = true
      · simp only [dceOnce, hdead, if_true]
        right
        rw [optMeasure_cons]
        have := instrWeight_pos i
        omega
      · simp only [dceOnce, hdead, Bool.false_eq_true, if_false]
        rcases ih with he | hl
        · exact Or.inl (by rw [he])
        · right
          rw [optMeasure_cons, optMeasure_cons]
          omega

theorem cpOnce_measure_le (p : List Instr) :
    optMeasure (cpOnce p) ≤ optMeasure p := by
  rcases cpOnce_measure p with he | hl
  · rw [he]
  · omega

theorem dceOnce_measure_le (p : List Instr) :
    optMeasure (dceOnce p) ≤ optMeasure p := by
  rcases dceOnce_measure p with he | hl
  · rw [he]
  · omega

theorem optStep_measure_lt (p : List Instr) (h : optStep p ≠ p) :
    optMeasure (optStep p) < optMeasure p := by
  have hstep : optStep p = dceOnce ((cpOnce (p.map foldI2F)).map algSimp) := rfl
  have m1 : optMeasure (p.map foldI2F) ≤ optMeasure p :=
    optMeasure_map_le foldI2F foldI2F_weight_le p
  have m2 : optMeasure (cpOnce (p.map foldI2F)) ≤ optMeasure (p.map foldI2F) :=
    cpOnce_measure_le _
  have m3 : optMeasure ((cpOnce (p.map foldI2F)).map algSimp) ≤
      optMeasure (cpOnce (p.map foldI2F)) :=
    optMeasure_map_le algSimp algSimp_weight_le _
  have m4 : optMeasure (optStep p) ≤
      optMeasure ((cpOnce (p.map foldI2F)).map algSimp) := by
    rw [hstep]
    exact dceOnce_measure_le _
  by_cases e1 : p.map foldI2F = p
  · by_cases e2 : cpOnce (p.map foldI2F) = p.map foldI2F
    · by_cases e3 : (cpOnce (p.map foldI2F)).map algSimp = cpOnce (p.map foldI2F)
      · by_cases e4 : dceOnce ((cpOnce (p.map foldI2F)).map algSimp) =
            (cpOnce (p.map foldI2F)).map algSimp
        · exfalso
          exact h (by rw [hstep, e4, e3, e2, e1])
        · have g4 : optMeasure (dceOnce ((cpOnce (p.map foldI2F)).map algSimp)) <
              optMeasure ((cpOnce (p.map foldI2F)).map algSimp) := by
            rcases dceOnce_measure ((cpOnce (p.map foldI2F)).map algSimp) with he | hl
            · exact absurd he e4
            · exact hl
          rw [hstep]
          omega
      · have g3 := optMeasure_map_lt algSimp algSimp_weight_le algSimp_weight_lt
          (cpOnce (p.map foldI2F)) e3
        omega
    · have g2 : optMeasure (cpOnce (p.map foldI2F)) < optMeasure (p.map foldI2F) := by
        rcases cpOnce_measure (p.map foldI2F) with he | hl
        · exact absurd he e2
        · exact hl
      omega
  · have g1 := optMeasure_map_lt foldI2F foldI2F_weight_le foldI2F_weight_lt p e1
    omega

theorem iterOpt_fix (n : Nat) :
    ∀ p : List Instr, optMeasure p < n →
      optStep (iterOpt n p) = iterOpt n p := by
  induction n with
  | zero => intro p h; omega
  | succ n ih =>
      intro p h
      simp only [iterOpt]
      by_cases he : optStep p = p
      · rw [if_pos he]
        exact he
      · rw [if_neg he]
        have := optStep_measure_lt p he
        exact ih (optStep p) (by omega)

/-- C4: the optimizer is idempotent — for every TAC instruction sequence `t`,
`optimize (optimize t)` has the same instruction content, and hence the same
instruction count, as `optimize t`: `optimize` iterates its passes to a fixed
point, so its result is already a fixed point of one more round. -/
theorem optimize_idempotent (t : List Instr) :
    optimize (optimize t) = optimize t ∧
    (optimize (optimize t)).length = (optimize t).length := by
  have hfix : optStep (optimize t) = optimize t :=
    iterOpt_fix (optMeasure t + 1) t (Nat.lt_succ_self _)
  have heq : optimize (optimize t) = optimize t := by
    show iterOpt (optMeasure (optimize t) + 1) (optimize t) = optimize t
    simp [iterOpt, hfix]
  exact ⟨heq, by rw [heq]⟩

/-- Witness for C5's quantified conjunct: a loop whose condition is the float
literal 1 (true) stops after its first iteration. -/
theorem repeat_until_exec_and_icg_witness :
    evalE (fun _ => (0 : ℚ)) (.flt 1) ≠ 0 ∧ 1 ≤ 1 :=
  repeat_until_exec_and_icg.1 .skip (.flt 1) 2 ⟨fun _ => 0, [], []⟩ 1
    ⟨fun _ => 0, [], []⟩ (by rfl)
